import Mathlib

/-!
Shallow embedding of `src/schedule_analyzer/ScheduleAnalyzer.py` (class
`ScheduleAnalyzer`) and verification of its stated properties.

Modelling conventions:
* Python strings are modelled as `List Char` (Python strings are sequences of
  code points); `str.split(sep)` is `splitOnL`, `str.split()` is `pySplitWS`,
  `int(...)` on a digit token is `toNatL`, `str.lower()` is `lowerRu`
  (full lowering for the ASCII and Russian alphabets, the only ones that occur
  in the parser's month table).
* `datetime.time` values are minutes after midnight (`ℕ`); `datetime.time(h, m)`
  is constructible only for `h ≤ 23`, `m ≤ 59`, which the parser checks.
* `datetime.date` is the `Date` structure; `date.weekday()` (Monday = 0) is
  `weekday`, computed from the proleptic Gregorian day number.
* Python dicts keyed by dates / indices are association lists read through
  `alookup`; `dict.__setitem__` is `ainsert`.
* Python `int` subtraction that can go negative (interval durations) is
  modelled in `ℤ`.
* `try/except (ValueError, KeyError)` around parsing is modelled by `Option`:
  `none` is the raising outcome.
* The `holidays.country_holidays(...)` library object is external to the
  repository; its value is passed in as an explicit list of dates
  (`holiday_calendar` field / argument).
-/

namespace ScheduleAnalyzer

/-- Strip a leading occurrence of a separator: `some rest` when `sep` is a
prefix of the string, `none` otherwise. -/
def stripPre : List Char → List Char → Option (List Char)
  | [], s => some s
  | _, [] => none
  | p :: ps, c :: cs => if c = p then stripPre ps cs else none

/-- Model of Python `str.split(sep)` for a non-empty separator `sep`:
split on every (left-to-right, non-overlapping) occurrence, keeping empties.
The first argument is fuel, always instantiated with the string length. -/
def splitOnGo (sep : List Char) : ℕ → List Char → List Char → List (List Char)
  | _, [], acc => [acc.reverse]
  | 0, s, acc => [acc.reverse ++ s]
  | n+1, c :: cs, acc =>
    match stripPre sep (c :: cs) with
    | some rest => acc.reverse :: splitOnGo sep n rest []
    | none => splitOnGo sep n cs (c :: acc)

/-- Python `s.split(sep)` with non-empty `sep`. -/
def splitOnL (sep s : List Char) : List (List Char) := splitOnGo sep s.length s []

/-- Helper for Python `str.split()` (whitespace split): cut at every char
satisfying `p`, keeping empties (filtered by the caller). -/
def splitIfGo (p : Char → Bool) : List Char → List Char → List (List Char)
  | [], acc => [acc.reverse]
  | c :: cs, acc =>
    if p c then acc.reverse :: splitIfGo p cs [] else splitIfGo p cs (c :: acc)

/-- Python `s.split()`: split on whitespace runs, dropping empty fields. -/
def pySplitWS (s : List Char) : List (List Char) :=
  (splitIfGo (fun c => c.isWhitespace) s []).filter (fun t => !t.isEmpty)

/-- Python `int(token)` for the digit tokens produced by the schedule parser:
`some` of the value on a non-empty all-digit token, `none` (= `ValueError`)
otherwise. -/
def toNatL (s : List Char) : Option ℕ :=
  if s ≠ [] ∧ s.all Char.isDigit then
    some (s.foldl (fun n c => 10 * n + (c.toNat - 48)) 0)
  else none

/-- Python `str.lower()` restricted to the alphabets that occur in the month
table: ASCII letters and the Russian alphabet (`А`–`Я` and `Ё`). -/
def lowerRu (s : List Char) : List Char :=
  s.map fun c =>
    if 'А' ≤ c ∧ c ≤ 'Я' then Char.ofNat (c.toNat + 32)
    else if c = 'Ё' then 'ё'
    else c.toLower

/-- `datetime.date`, as a plain (year, month, day) triple. -/
structure Date where
  year : ℕ
  month : ℕ
  day : ℕ
deriving DecidableEq

/-- Gregorian leap-year test (as used by `datetime.date`). -/
def isLeap (y : ℕ) : Bool := y % 4 = 0 ∧ (y % 100 ≠ 0 ∨ y % 400 = 0)

/-- Number of days of month `m` of year `y` (months numbered 1–12). -/
def daysInMonth (y m : ℕ) : ℕ :=
  if m = 2 then (if isLeap y then 29 else 28)
  else if m = 4 ∨ m = 6 ∨ m = 9 ∨ m = 11 then 30
  else 31

/-- Days before month `m` in year `y`. -/
def daysBeforeMonth (y m : ℕ) : ℕ :=
  [0, 31, 59, 90, 120, 151, 181, 212, 243, 273, 304, 334].getD (m - 1) 0
  + (if isLeap y ∧ 3 ≤ m then 1 else 0)

/-- Proleptic Gregorian day number of a date; `⟨1, 1, 1⟩` is day 1. -/
def rataDie (d : Date) : ℕ :=
  365 * (d.year - 1) + (d.year - 1) / 4 + (d.year - 1) / 400
    + daysBeforeMonth d.year d.month + d.day - (d.year - 1) / 100

/-- `datetime.date.weekday()`: Monday = 0, …, Sunday = 6. -/
def weekday (d : Date) : ℕ := (rataDie d + 6) % 7

/-- `date + datetime.timedelta(days=1)`. -/
def succDate (d : Date) : Date :=
  if d.day < daysInMonth d.year d.month then ⟨d.year, d.month, d.day + 1⟩
  else if d.month < 12 then ⟨d.year, d.month + 1, 1⟩
  else ⟨d.year + 1, 1, 1⟩

/-- `date + datetime.timedelta(days=n)`, one step at a time (as the search
loops do). -/
def dateAdd (d : Date) : ℕ → Date
  | 0 => d
  | n + 1 => dateAdd (succDate d) n

/-- `datetime.date` comparison `x < y` (lexicographic, = chronological on
valid dates). -/
def dateLtB (x y : Date) : Bool :=
  x.year < y.year ∨ (x.year = y.year ∧
    (x.month < y.month ∨ (x.month = y.month ∧ x.day < y.day)))

/-- Association-list read, modelling Python `dict` lookup / `in`. -/
def alookup {κ β : Type} [DecidableEq κ] (k : κ) : List (κ × β) → Option β
  | [] => none
  | (k₂, v) :: rest => if k = k₂ then some v else alookup k rest

/-- Association-list write, modelling Python `dict.__setitem__`. -/
def ainsert {κ β : Type} [DecidableEq κ] (k : κ) (v : β) : List (κ × β) → List (κ × β)
  | [] => [(k, v)]
  | (k₂, w) :: rest => if k = k₂ then (k, v) :: rest else (k₂, w) :: ainsert k v rest

/-- The class constant `MONTHS` (month-name → month-number table). -/
def MONTHS : List (List Char × ℕ) :=
  [("января".toList, 1), ("февраля".toList, 2), ("марта".toList, 3),
   ("апреля".toList, 4), ("мая".toList, 5), ("июня".toList, 6),
   ("июля".toList, 7), ("августа".toList, 8), ("сентября".toList, 9),
   ("октября".toList, 10), ("ноября".toList, 11), ("декабря".toList, 12)]

/-- `_parse_date`: parse a date label such as `"Пн, 17 февраля"` against the
analyzer's year.  `none` models the `ValueError` outcomes: wrong comma
structure, wrong day/month token count, non-numeric day, unknown month name,
or a day out of range for the month (the `datetime.date` constructor check). -/
def parse_date (year : ℕ) (s : List Char) : Option Date :=
  match splitOnL [',', ' '] s with
  | [_, dm] =>
    match pySplitWS dm with
    | [dayS, monS] =>
      match toNatL dayS with
      | none => none
      | some dn =>
        match alookup (lowerRu monS) MONTHS with
        | none => none
        | some m =>
          if 1 ≤ dn ∧ dn ≤ daysInMonth year m then some ⟨year, m, dn⟩ else none
    | _ => none
  | _ => none

/-- One `"HH:MM"` component of a time range, as minutes after midnight.
`none` models `ValueError` (wrong token count, non-numeric parts, or the
`datetime.time` range check). -/
def parseHM (s : List Char) : Option ℕ :=
  match splitOnL [':'] s with
  | [hs, ms] =>
    match toNatL hs, toNatL ms with
    | some h, some m => if h ≤ 23 ∧ m ≤ 59 then some (60 * h + m) else none
    | _, _ => none
  | _ => none

/-- `_parse_time`: parse `"HH:MM-HH:MM"` into a (start, end) pair of minute
values.  The order of the two components is NOT checked. -/
def parse_time (s : List Char) : Option (ℕ × ℕ) :=
  match splitOnL ['-'] s with
  | [a, b] =>
    match parseHM a, parseHM b with
    | some t1, some t2 => some (t1, t2)
    | _, _ => none
  | _ => none

/-- One lesson entry of a day record.  Only the `time` field is interpreted;
`none` models a missing `time` key (`lesson.get('time')` → `None`). -/
structure Lesson where
  time : Option (List Char)
deriving DecidableEq

/-- One day record of a raw calendar.  `day = none` models a record without a
`'day'` key (`day_data['day']` → `KeyError`). -/
structure DayRecord where
  day : Option (List Char)
  lessons : List Lesson
deriving DecidableEq

/-- Per-calendar busy map: date → busy interval list (minutes). -/
def BusyMap : Type := List (Date × List (ℕ × ℕ))

instance : DecidableEq BusyMap := by
  unfold BusyMap
  infer_instance

/-- The `ScheduleAnalyzer` instance state.  `holiday_calendar` carries the
value of the external `holidays.country_holidays(...)` object as a date list;
`processedSchedules` and `busyCache` are the `_processed_schedules` and
`_busy_intervals` cache dictionaries. -/
structure Analyzer where
  schedules : List (List DayRecord)
  year : ℕ
  country : List Char
  holiday_calendar : List Date
  custom_holidays : List (ℕ × ℕ)
  processedSchedules : List (ℕ × ℕ)
  busyCache : List (ℕ × BusyMap)
deriving DecidableEq

/-- Stable insertion of one element: place `a` before the first element `b`
with `le a b`.  With `le` a key comparison this reproduces Python's stable
`list.sort(key=...)`. -/
def insOne {α : Type} (le : α → α → Bool) (a : α) : List α → List α
  | [] => [a]
  | b :: l => if le a b then a :: b :: l else b :: insOne le a l

/-- Stable sort (model of Python `list.sort`, which is stable). -/
def insSort {α : Type} (le : α → α → Bool) : List α → List α
  | [] => []
  | a :: l => insOne le a (insSort le l)

/-- Comparison used by `_get_busy_intervals`: sort by start time
(`key=lambda x: x[0]`). -/
def startLe (p q : ℕ × ℕ) : Bool := p.1 ≤ q.1

/-- `_interval_duration_minutes`, in `ℤ` because Python subtraction of the
two minute counts can be negative for a malformed interval. -/
def interval_duration_minutes (p : ℕ × ℕ) : ℤ := (p.2 : ℤ) - (p.1 : ℤ)

/-- Comparison used by `find_window_by_volume`: sort by duration, descending
(`key=duration, reverse=True`; stability matches Python's). -/
def durGe (p q : ℕ × ℕ) : Bool := interval_duration_minutes q ≤ interval_duration_minutes p

/-- The inner lesson loop of `_get_busy_intervals` for one day record:
append the parsed interval of every lesson in order; a lesson with no (or
empty) time string is skipped; the first unparseable time string aborts the
loop (`ValueError` caught by the per-record handler), keeping what was
already appended.  Returns the extended list and whether the loop finished
normally (so that the final per-date sort runs). -/
def processLessons (cur : List (ℕ × ℕ)) : List Lesson → List (ℕ × ℕ) × Bool
  | [] => (cur, true)
  | les :: rest =>
    match les.time with
    | none => processLessons cur rest
    | some ts =>
      if ts = [] then processLessons cur rest
      else
        match parse_time ts with
        | some iv => processLessons (cur ++ [iv]) rest
        | none => (cur, false)

/-- The body of `_get_busy_intervals`'s record loop for one day record,
including the `try/except (ValueError, KeyError): continue` semantics:
a missing or unparseable date label leaves the map unchanged; otherwise the
date's entry (created empty if absent) is extended by the record's parseable
lesson prefix, and sorted by start time only if every lesson parsed. -/
def process_day (year : ℕ) (acc : BusyMap) (rec : DayRecord) : BusyMap :=
  match rec.day with
  | none => acc
  | some ds =>
    match parse_date year ds with
    | none => acc
    | some d =>
      let cur := (alookup d acc).getD []
      let r := processLessons cur rec.lessons
      if r.2 then ainsert d (insSort startLe r.1) acc else ainsert d r.1 acc

/-- `_get_busy_intervals`: empty map for a missing schedule index, cached map
on a cache hit, otherwise the per-record fold over the raw calendar.
(The Python method also writes the computed map back into the cache; the
cache-state effect of reads is not modelled, only mutator cache effects.) -/
def get_busy_intervals (a : Analyzer) (idx : ℕ) : BusyMap :=
  if a.schedules = [] ∨ a.schedules.length ≤ idx then []
  else
    match alookup idx a.busyCache with
    | some m => m
    | none => (a.schedules.getD idx []).foldl (process_day a.year) []

/-- The cursor sweep of `_get_free_intervals` over the (start-sorted) busy
list of one date: emit `(cursor, start)` whenever the cursor is before the
next busy start, then advance the cursor to `max cursor end`; finally emit
the trailing interval up to `maxM` if the cursor is still before it. -/
def sweepFree (maxM : ℕ) : ℕ → List (ℕ × ℕ) → List (ℕ × ℕ)
  | cur, [] => if cur < maxM then [(cur, maxM)] else []
  | cur, (s, e) :: rest =>
    (if cur < s then [(cur, s)] else []) ++ sweepFree maxM (max cur e) rest

/-- `_get_free_intervals`: a date absent from the busy map is fully free
(`[(minStart, maxEnd)]`); otherwise the cursor sweep over its busy list. -/
def get_free_intervals (a : Analyzer) (d : Date) (idx minH maxH : ℕ) : List (ℕ × ℕ) :=
  match alookup d (get_busy_intervals a idx) with
  | none => [(60 * minH, 60 * maxH)]
  | some l => sweepFree (60 * maxH) (60 * minH) l

/-- The pairwise-intersection double loop of
`_get_free_intervals_for_multiple_schedules`: for every interval of the
running set (outer) and every interval of the new set (inner), keep
`(max starts, min ends)` when non-empty, in loop order. -/
def interSect (A B : List (ℕ × ℕ)) : List (ℕ × ℕ) :=
  A.flatMap fun p =>
    B.filterMap fun q =>
      if max p.1 q.1 < min p.2 q.2 then some (max p.1 q.1, min p.2 q.2) else none

/-- The index fold of `_get_free_intervals_for_multiple_schedules`, with the
short-circuit `break` as soon as the running set becomes empty. -/
def interFold (a : Analyzer) (d : Date) (minH maxH : ℕ) :
    List (ℕ × ℕ) → List ℕ → List (ℕ × ℕ)
  | common, [] => common
  | common, i :: rest =>
    let nc := interSect common (get_free_intervals a d i minH maxH)
    if nc = [] then [] else interFold a d minH maxH nc rest

/-- `_get_free_intervals_for_multiple_schedules`.  `none` for the `indices`
argument models passing `schedule_indices=None` (all schedules); the result
`none` models the uncaught `IndexError` of `schedule_indices[0]` on an
explicitly empty index list (with a non-empty store). -/
def get_free_intervals_for_multiple_schedules (a : Analyzer) (d : Date)
    (indices : Option (List ℕ)) (minH maxH : ℕ) : Option (List (ℕ × ℕ)) :=
  if a.schedules = [] then some []
  else
    match indices.getD (List.range a.schedules.length) with
    | [] => none
    | i :: rest =>
      some (interFold a d minH maxH (get_free_intervals a d i minH maxH) rest)

/-- `_is_holiday`: exact date in the region holiday calendar, or (day, month)
in the custom holiday set (year-independent). -/
def is_holiday (a : Analyzer) (d : Date) : Bool :=
  d ∈ a.holiday_calendar ∨ (d.day, d.month) ∈ a.custom_holidays

/-- `_is_weekend`: Saturday (5) or Sunday (6). -/
def is_weekend (d : Date) : Bool := 5 ≤ weekday d

/-- `_is_valid_date`: deadline check first (a `None` deadline is falsy and
skips the check), then the weekend check unless `include_weekends`, then the
holiday check unless `include_holidays`. -/
def is_valid_date (a : Analyzer) (d : Date) (iw ih : Bool) (dl : Option Date) : Bool :=
  if (match dl with | some x => dateLtB x d | none => false) then false
  else if !iw && is_weekend d then false
  else if !ih && is_holiday a d then false
  else true

/-- Result dictionary of `find_nearest_window_by_width` (and of the per-day
windows of algorithm 2).  All times in minutes. -/
structure FoundWindow where
  date : Date
  start_time : ℕ
  end_time : ℕ
  duration_minutes : ℕ
deriving DecidableEq

/-- The free-interval scan of `find_nearest_window_by_width` for one day:
return the first interval of the list whose duration is at least
`width`, truncated to exactly `width` minutes from its start (the end time
is rebuilt from `//60` and `%60` exactly as the source does). -/
def firstFitWindow (width : ℕ) (d : Date) : List (ℕ × ℕ) → Option FoundWindow
  | [] => none
  | p :: rest =>
    if (width : ℤ) ≤ interval_duration_minutes p then
      some ⟨d, p.1, 60 * ((p.1 + width) / 60) + (p.1 + width) % 60, width⟩
    else firstFitWindow width d rest

/-- Day-stepping loop of `find_nearest_window_by_width` (fuel =
`max_days_to_check` minus days already checked). -/
def nearestLoop (a : Analyzer) (width idx : ℕ) (iw ih : Bool) (dl : Option Date)
    (minH maxH : ℕ) : ℕ → Date → Option FoundWindow
  | 0, _ => none
  | n + 1, d =>
    if is_valid_date a d iw ih dl then
      match firstFitWindow width d (get_free_intervals a d idx minH maxH) with
      | some w => some w
      | none => nearestLoop a width idx iw ih dl minH maxH n (succDate d)
    else nearestLoop a width idx iw ih dl minH maxH n (succDate d)

/-- Algorithm 1, `find_nearest_window_by_width`.  The `start_date` default
(“today”) is an explicit argument here. -/
def find_nearest_window_by_width (a : Analyzer) (width : ℕ) (start : Date)
    (idx : ℕ) (iw ih : Bool) (dl : Option Date) (max_days minH maxH : ℕ) :
    Option FoundWindow :=
  if a.schedules = [] ∨ a.schedules.length ≤ idx then none
  else nearestLoop a width idx iw ih dl minH maxH max_days start

/-- One chunk of `find_window_by_volume`'s result (`windows` entries). -/
structure VWindow where
  date : Date
  start_time : ℕ
  end_time : ℕ
  duration_minutes : ℕ
deriving DecidableEq

/-- Result dictionary of `find_window_by_volume`. -/
structure VolumeResult where
  total_minutes : ℕ
  days_count : ℕ
  windows : List VWindow
deriving DecidableEq

/-- The inner interval loop of `find_window_by_volume` for one day, over the
duration-descending interval list: take `min(duration, total - accumulated)`
minutes from an interval's start provided the interval and the taken chunk
are at least `min_width` long, and `break` once the accumulated total
reaches the target.  Returns this day's chunks and the new total. -/
def dayLoop (minw total : ℕ) (d : Date) : List (ℕ × ℕ) → ℕ → List VWindow × ℕ
  | [], acc => ([], acc)
  | p :: rest, acc =>
    if (minw : ℤ) ≤ interval_duration_minutes p then
      let take : ℤ := min (interval_duration_minutes p) ((total : ℤ) - (acc : ℤ))
      if (minw : ℤ) ≤ take then
        let w : VWindow :=
          ⟨d, p.1, 60 * ((p.1 + take.toNat) / 60) + (p.1 + take.toNat) % 60, take.toNat⟩
        if total ≤ acc + take.toNat then ([w], acc + take.toNat)
        else
          let r := dayLoop minw total d rest (acc + take.toNat)
          (w :: r.1, r.2)
      else dayLoop minw total d rest acc
    else dayLoop minw total d rest acc

/-- The post-loop return of `find_window_by_volume`: the result dictionary if
the accumulated total reached the target, else the not-found sentinel.
`days_count` is the number of distinct dates among the chunks. -/
def volumeResultOf (total acc : ℕ) (ws : List VWindow) : Option VolumeResult :=
  if total ≤ acc then some ⟨acc, ((ws.map VWindow.date).dedup).length, ws⟩ else none

/-- Day-stepping loop of `find_window_by_volume`: stop on exhausted fuel or
on a reached target; on a valid day, consume from that day's free intervals
sorted by descending duration. -/
def volumeLoop (a : Analyzer) (idx : ℕ) (iw ih : Bool) (dl : Option Date)
    (minH maxH minw total : ℕ) : ℕ → Date → ℕ → List VWindow → Option VolumeResult
  | 0, _, acc, ws => volumeResultOf total acc ws
  | n + 1, d, acc, ws =>
    if total ≤ acc then volumeResultOf total acc ws
    else
      if is_valid_date a d iw ih dl then
        let sorted := insSort durGe (get_free_intervals a d idx minH maxH)
        let r := dayLoop minw total d sorted acc
        volumeLoop a idx iw ih dl minH maxH minw total n (succDate d) r.2 (ws ++ r.1)
      else volumeLoop a idx iw ih dl minH maxH minw total n (succDate d) acc ws

/-- Algorithm 3, `find_window_by_volume`. -/
def find_window_by_volume (a : Analyzer) (total minw : ℕ) (start : Date)
    (idx : ℕ) (iw ih : Bool) (dl : Option Date) (max_days minH maxH : ℕ) :
    Option VolumeResult :=
  if a.schedules = [] ∨ a.schedules.length ≤ idx then none
  else volumeLoop a idx iw ih dl minH maxH minw total max_days start 0 []

/-- Result dictionary of `find_common_window_for_multiple_schedules`. -/
structure CWindow where
  date : Date
  start_time : ℕ
  end_time : ℕ
  duration_minutes : ℕ
  participants_count : ℕ
deriving DecidableEq

/-- The free-interval scan of algorithm 4 for one day (same first-fit rule as
algorithm 1, with the participants count added). -/
def firstFitCommon (width npart : ℕ) (d : Date) : List (ℕ × ℕ) → Option CWindow
  | [] => none
  | p :: rest =>
    if (width : ℤ) ≤ interval_duration_minutes p then
      some ⟨d, p.1, 60 * ((p.1 + width) / 60) + (p.1 + width) % 60, width, npart⟩
    else firstFitCommon width npart d rest

/-- Day-stepping loop of `find_common_window_for_multiple_schedules`.
(The uncaught `IndexError` of an explicitly empty index list is modelled as
the not-found sentinel here; no claim concerns that case.) -/
def commonLoop (a : Analyzer) (width : ℕ) (idxs : List ℕ) (iw ih : Bool)
    (dl : Option Date) (minH maxH : ℕ) : ℕ → Date → Option CWindow
  | 0, _ => none
  | n + 1, d =>
    if is_valid_date a d iw ih dl then
      match get_free_intervals_for_multiple_schedules a d (some idxs) minH maxH with
      | none => none
      | some common =>
        match firstFitCommon width idxs.length d common with
        | some w => some w
        | none => commonLoop a width idxs iw ih dl minH maxH n (succDate d)
    else commonLoop a width idxs iw ih dl minH maxH n (succDate d)

/-- Algorithm 4, `find_common_window_for_multiple_schedules`. -/
def find_common_window_for_multiple_schedules (a : Analyzer) (width : ℕ)
    (indices : Option (List ℕ)) (start : Date) (iw ih : Bool) (dl : Option Date)
    (max_days minH maxH : ℕ) : Option CWindow :=
  if a.schedules = [] then none
  else
    commonLoop a width (indices.getD (List.range a.schedules.length)) iw ih dl
      minH maxH max_days start

/-- `add_schedule`: append a non-empty calendar and reset both caches; a
falsy (empty) argument is ignored entirely. -/
def add_schedule (a : Analyzer) (s : List DayRecord) : Analyzer :=
  if s = [] then a
  else { a with schedules := a.schedules ++ [s], processedSchedules := [], busyCache := [] }

/-- `set_schedules`: replace the schedule list and reset both caches. -/
def set_schedules (a : Analyzer) (ss : List (List DayRecord)) : Analyzer :=
  { a with schedules := ss, processedSchedules := [], busyCache := [] }

/-- `set_holiday_calendar`: replace the region holiday calendar (the value of
the external `holidays.country_holidays(country, years)` call is the `cal`
argument).  Note: it does NOT touch the caches. -/
def set_holiday_calendar (a : Analyzer) (country : List Char) (cal : List Date) : Analyzer :=
  { a with country := country, holiday_calendar := cal }

/-- `add_custom_holiday`: add one (day, month) pair to the custom holiday
set.  Note: it does NOT touch the caches. -/
def add_custom_holiday (a : Analyzer) (dy mo : ℕ) : Analyzer :=
  { a with custom_holidays :=
      if (dy, mo) ∈ a.custom_holidays then a.custom_holidays
      else a.custom_holidays ++ [(dy, mo)] }

/-- Membership of a minute `t` in a half-open interval. -/
def inIvl (t : ℕ) (p : ℕ × ℕ) : Prop := p.1 ≤ t ∧ t < p.2

instance (t : ℕ) (p : ℕ × ℕ) : Decidable (inIvl t p) := by
  unfold inIvl
  infer_instance

/-- A minute is covered by some interval of the list. -/
def covers (l : List (ℕ × ℕ)) (t : ℕ) : Prop := ∃ p ∈ l, inIvl t p

instance (l : List (ℕ × ℕ)) (t : ℕ) : Decidable (covers l t) :=
  List.decidableBEx _ l

/-- Merge of a start-sorted interval list (the spec's “merged busy
intervals”): coalesce while the next start is at most the running end. -/
def mergeGo : ℕ × ℕ → List (ℕ × ℕ) → List (ℕ × ℕ)
  | p, [] => [p]
  | (s, e), (s₂, e₂) :: rest =>
    if s₂ ≤ e then mergeGo (s, max e e₂) rest else (s, e) :: mergeGo (s₂, e₂) rest

/-- Merged form of a start-sorted busy list. -/
def mergeIvls : List (ℕ × ℕ) → List (ℕ × ℕ)
  | [] => []
  | p :: rest => mergeGo p rest

/-- Clip an interval list to the day bounds `[minM, maxM)`, dropping the
pieces that become empty. -/
def clipTo (minM maxM : ℕ) (l : List (ℕ × ℕ)) : List (ℕ × ℕ) :=
  (l.map fun p => (max p.1 minM, min p.2 maxM)).filter fun p => decide (p.1 < p.2)

/-- Canonical interval lists: strictly separated and non-degenerate.  The
resolver's free-interval lists have this shape whenever the busy data is
well-formed, and a set of minutes has at most one such representation. -/
def Canon (l : List (ℕ × ℕ)) : Prop :=
  l.Pairwise (fun p q => p.2 < q.1) ∧ ∀ p ∈ l, p.1 < p.2

/-- Per-day consumption rule of Algorithm 3 as the spec words it: walk the
duration-descending free intervals; stop once nothing remains to consume;
consume `min(interval duration, remaining)` minutes from an interval's start
provided that chunk is at least `min_width` long, else skip the interval.
Returns the chunks and the remaining minutes still needed. -/
def specConsumeChunks (minw : ℕ) (d : Date) : ℕ → List (ℕ × ℕ) → List VWindow × ℕ
  | rem, [] => ([], rem)
  | rem, p :: rest =>
    if rem = 0 then ([], 0)
    else
      let take : ℤ := min (interval_duration_minutes p) (rem : ℤ)
      if (minw : ℤ) ≤ take then
        let r := specConsumeChunks minw d (rem - take.toNat) rest
        (⟨d, p.1, p.1 + take.toNat, take.toNat⟩ :: r.1, r.2)
      else specConsumeChunks minw d rem rest

/-- A date used by the repository's own test data (a Monday). -/
def exDate : Date := ⟨2025, 2, 17⟩

/-- A small well-formed calendar (two lessons on one day). -/
def exCal1 : List DayRecord :=
  [⟨some "Пн, 17 февраля".toList, [⟨some "09:20-10:55".toList⟩, ⟨some "11:10-12:45".toList⟩]⟩]

/-- A second well-formed calendar (one lesson on the same day). -/
def exCal2 : List DayRecord :=
  [⟨some "Пн, 17 февраля".toList, [⟨some "09:20-12:45".toList⟩]⟩]

/-- An analyzer loaded with the two well-formed calendars. -/
def exAnalyzer : Analyzer := ⟨[exCal1, exCal2], 2025, "RU".toList, [], [], [], []⟩

/-- A calendar whose single lesson has a reversed time range (`"23:15-07:10"`
parses fine: `_parse_time` never compares the two components). -/
def malCalA : List DayRecord :=
  [⟨some "Пн, 17 февраля".toList, [⟨some "23:15-07:10".toList⟩]⟩]

/-- A well-formed three-lesson calendar on the same day. -/
def malCalB : List DayRecord :=
  [⟨some "Пн, 17 февраля".toList,
    [⟨some "06:40-07:20".toList⟩, ⟨some "07:40-07:50".toList⟩, ⟨some "08:00-23:00".toList⟩]⟩]

/-- An analyzer holding the reversed-range calendar and the well-formed one. -/
def malAnalyzer : Analyzer := ⟨[malCalA, malCalB], 2025, "RU".toList, [], [], [], []⟩

/-- A calendar with one lesson lying entirely after the default 23:00 day
bound. -/
def lateCal : List DayRecord :=
  [⟨some "Пн, 17 февраля".toList, [⟨some "23:15-23:30".toList⟩]⟩]

/-- An analyzer holding only `lateCal`. -/
def lateAnalyzer : Analyzer := ⟨[lateCal], 2025, "RU".toList, [], [], [], []⟩

/-- A calendar whose day has one good lesson followed by one with an
unparseable time string. -/
def partialCal : List DayRecord :=
  [⟨some "Пн, 17 февраля".toList, [⟨some "08:00-09:00".toList⟩, ⟨some "badtime".toList⟩]⟩]

/-- An analyzer holding only `partialCal`. -/
def partialAnalyzer : Analyzer := ⟨[partialCal], 2025, "RU".toList, [], [], [], []⟩

/-- An analyzer with a non-empty busy-interval cache (the state after one
read of schedule 0). -/
def cachedAnalyzer : Analyzer :=
  ⟨[exCal1], 2025, "RU".toList, [], [], [], [(0, [(exDate, [(560, 655), (670, 765)])])]⟩

/-- The intervals contributed by a lesson list when extraction succeeds:
every lesson with a present, non-empty, parseable time string contributes
its parsed interval, in record order. -/
def lessonIvls (ls : List Lesson) : List (ℕ × ℕ) :=
  ls.filterMap fun les =>
    match les.time with
    | none => none
    | some ts => if ts = [] then none else parse_time ts

/-- A lesson that cannot abort extraction: its time string is absent, empty,
or parseable. -/
def LessonOk (les : Lesson) : Prop :=
  les.time = none ∨ les.time = some [] ∨
    ∃ ts iv, les.time = some ts ∧ parse_time ts = some iv

theorem covers_nil (t : ℕ) : ¬ covers [] t := by
  simp [covers]

theorem covers_cons {p : ℕ × ℕ} {l : List (ℕ × ℕ)} {t : ℕ} :
    covers (p :: l) t ↔ inIvl t p ∨ covers l t := by
  simp [covers]

theorem covers_append {A B : List (ℕ × ℕ)} {t : ℕ} :
    covers (A ++ B) t ↔ covers A t ∨ covers B t := by
  constructor
  · rintro ⟨p, hp, h⟩
    rcases List.mem_append.1 hp with hp | hp
    · exact Or.inl ⟨p, hp, h⟩
    · exact Or.inr ⟨p, hp, h⟩
  · rintro (⟨p, hp, h⟩ | ⟨p, hp, h⟩)
    · exact ⟨p, List.mem_append.2 (Or.inl hp), h⟩
    · exact ⟨p, List.mem_append.2 (Or.inr hp), h⟩

theorem not_covers_of_lt_starts {l : List (ℕ × ℕ)} {s t : ℕ}
    (hall : ∀ q ∈ l, s ≤ q.1) (ht : t < s) : ¬ covers l t := by
  rintro ⟨q, hq, h1, h2⟩
  exact absurd (le_trans (hall q hq) h1) (by omega)

theorem mem_sweepFree_start (maxM : ℕ) :
    ∀ (l : List (ℕ × ℕ)) (cur : ℕ), ∀ q ∈ sweepFree maxM cur l, cur ≤ q.1 := by
  intro l
  induction l with
  | nil =>
    intro cur q hq
    unfold sweepFree at hq
    by_cases h : cur < maxM
    · simp [h] at hq
      simp [hq]
    · simp [h] at hq
  | cons p rest ih =>
    intro cur q hq
    obtain ⟨s, e⟩ := p
    unfold sweepFree at hq
    rcases List.mem_append.1 hq with hq | hq
    · by_cases h : cur < s
      · simp [h] at hq
        simp [hq]
      · simp [h] at hq
    · have := ih (max cur e) q hq
      omega

theorem mem_sweepFree_end (maxM : ℕ) :
    ∀ (l : List (ℕ × ℕ)), (∀ p ∈ l, p.1 ≤ maxM) →
      ∀ (cur : ℕ), ∀ q ∈ sweepFree maxM cur l, q.2 ≤ maxM := by
  intro l
  induction l with
  | nil =>
    intro _ cur q hq
    unfold sweepFree at hq
    by_cases h : cur < maxM
    · simp [h] at hq
      simp [hq]
    · simp [h] at hq
  | cons p rest ih =>
    intro hub cur q hq
    obtain ⟨s, e⟩ := p
    have hs : s ≤ maxM := hub (s, e) (List.mem_cons_self _ _)
    unfold sweepFree at hq
    rcases List.mem_append.1 hq with hq | hq
    · by_cases h : cur < s
      · simp [h] at hq
        simp [hq, hs]
      · simp [h] at hq
    · exact ih (fun p hp => hub p (List.mem_cons_of_mem _ hp)) (max cur e) q hq

theorem covers_single {p : ℕ × ℕ} {t : ℕ} : covers [p] t ↔ inIvl t p := by
  simp [covers]

theorem inIvl_mk {s e t : ℕ} : inIvl t (s, e) ↔ (s ≤ t ∧ t < e) := Iff.rfl

theorem sweepFree_covers (maxM : ℕ) :
    ∀ (l : List (ℕ × ℕ)), l.Pairwise (fun p q => p.1 ≤ q.1) →
      (∀ p ∈ l, p.1 ≤ maxM) →
      ∀ (cur t : ℕ),
        (covers (sweepFree maxM cur l) t ↔ (cur ≤ t ∧ t < maxM ∧ ¬ covers l t)) := by
  intro l
  induction l with
  | nil =>
    intro _ _ cur t
    by_cases h : cur < maxM
    · rw [sweepFree, if_pos h, covers_single, inIvl_mk]
      have := covers_nil t
      constructor
      · rintro ⟨h1, h2⟩
        exact ⟨h1, h2, this⟩
      · rintro ⟨h1, h2, _⟩
        exact ⟨h1, h2⟩
    · rw [sweepFree, if_neg h]
      constructor
      · intro hc
        exact absurd hc (covers_nil t)
      · rintro ⟨h1, h2, _⟩
        omega
  | cons p rest ih =>
    intro hs hub cur t
    obtain ⟨s, e⟩ := p
    rw [List.pairwise_cons] at hs
    have hsM : s ≤ maxM := hub (s, e) (List.mem_cons_self _ _)
    have hub' : ∀ p ∈ rest, p.1 ≤ maxM := fun p hp => hub p (List.mem_cons_of_mem _ hp)
    have IH := ih hs.2 hub' (max cur e) t
    have hlow : ∀ t', t' < s → ¬ covers rest t' :=
      fun t' ht' => not_covers_of_lt_starts (fun q hq => hs.1 q hq) ht'
    rw [sweepFree, covers_append, IH, covers_cons, inIvl_mk]
    by_cases hC : covers rest t
    · have hts : s ≤ t := by
        by_contra hcon
        exact hlow t (by omega) hC
      by_cases h : cur < s
      · rw [if_pos h, covers_single, inIvl_mk]
        constructor
        · rintro (⟨h1, h2⟩ | ⟨h1, h2, h3⟩)
          · omega
          · exact absurd hC h3
        · rintro ⟨h1, h2, h3⟩
          exact absurd (Or.inr hC) h3
      · rw [if_neg h]
        constructor
        · rintro (hcc | ⟨h1, h2, h3⟩)
          · exact absurd hcc (covers_nil t)
          · exact absurd hC h3
        · rintro ⟨h1, h2, h3⟩
          exact absurd (Or.inr hC) h3
    · by_cases h : cur < s
      · rw [if_pos h, covers_single, inIvl_mk]
        constructor
        · rintro (⟨h1, h2⟩ | ⟨h1, h2, h3⟩)
          · refine ⟨h1, by omega, ?_⟩
            rintro (⟨h4, h5⟩ | h4)
            · omega
            · exact hC h4
          · refine ⟨by omega, h2, ?_⟩
            rintro (⟨h4, h5⟩ | h4)
            · omega
            · exact hC h4
        · rintro ⟨h1, h2, h3⟩
          by_cases hts : t < s
          · exact Or.inl ⟨h1, hts⟩
          · right
            have he : e ≤ t := by
              by_contra hcon
              exact h3 (Or.inl ⟨by omega, by omega⟩)
            exact ⟨by omega, h2, hC⟩
      · rw [if_neg h]
        constructor
        · rintro (hcc | ⟨h1, h2, h3⟩)
          · exact absurd hcc (covers_nil t)
          · refine ⟨by omega, h2, ?_⟩
            rintro (⟨h4, h5⟩ | h4)
            · omega
            · exact hC h4
        · rintro ⟨h1, h2, h3⟩
          right
          have he : e ≤ t := by
            by_contra hcon
            exact h3 (Or.inl ⟨by omega, by omega⟩)
          exact ⟨by omega, h2, hC⟩

theorem sweepFree_canon (maxM : ℕ) :
    ∀ (l : List (ℕ × ℕ)), l.Pairwise (fun p q => p.1 ≤ q.1) →
      (∀ p ∈ l, p.1 < p.2) → ∀ (cur : ℕ), Canon (sweepFree maxM cur l) := by
  intro l
  induction l with
  | nil =>
    intro _ _ cur
    by_cases h : cur < maxM
    · simp [sweepFree, h, Canon]
    · simp [sweepFree, h, Canon]
  | cons p rest ih =>
    intro hs hlt cur
    obtain ⟨s, e⟩ := p
    rw [List.pairwise_cons] at hs
    have hse : s < e := hlt (s, e) (List.mem_cons_self _ _)
    have hsub := ih hs.2 (fun p hp => hlt p (List.mem_cons_of_mem _ hp)) (max cur e)
    have hstarts := mem_sweepFree_start maxM rest (max cur e)
    unfold sweepFree
    by_cases h : cur < s
    · simp only [h, if_pos, List.singleton_append]
      constructor
      · rw [List.pairwise_cons]
        refine ⟨fun q hq => ?_, hsub.1⟩
        have := hstarts q hq
        simp only
        omega
      · intro q hq
        rcases List.mem_cons.1 hq with hq | hq
        · simp [hq]
          omega
        · exact hsub.2 q hq
    · simp only [h, if_neg, not_false_iff, List.nil_append]
      exact hsub

theorem inIvl_def {p : ℕ × ℕ} {t : ℕ} : inIvl t p ↔ (p.1 ≤ t ∧ t < p.2) := Iff.rfl

theorem mergeGo_covers :
    ∀ (rest : List (ℕ × ℕ)) (s e t : ℕ), (∀ q ∈ rest, s ≤ q.1) →
      rest.Pairwise (fun p q => p.1 ≤ q.1) →
      (covers (mergeGo (s, e) rest) t ↔ ((s ≤ t ∧ t < e) ∨ covers rest t)) := by
  intro rest
  induction rest with
  | nil =>
    intro s e t _ _
    rw [mergeGo, covers_single, inIvl_mk]
    have := covers_nil t
    tauto
  | cons q rest ih =>
    intro s e t hall hpw
    obtain ⟨s₂, e₂⟩ := q
    rw [List.pairwise_cons] at hpw
    have hs₂ : s ≤ s₂ := hall (s₂, e₂) (List.mem_cons_self _ _)
    rw [mergeGo]
    by_cases h : s₂ ≤ e
    · rw [if_pos h]
      have hall' : ∀ q ∈ rest, s ≤ q.1 := fun q hq => le_trans hs₂ (hpw.1 q hq)
      rw [ih s (max e e₂) t hall' hpw.2, covers_cons, inIvl_mk]
      by_cases hC : covers rest t
      · exact iff_of_true (Or.inr hC) (Or.inr (Or.inr hC))
      · constructor
        · rintro (⟨h1, h2⟩ | hc)
          · by_cases hte : t < e
            · exact Or.inl ⟨h1, hte⟩
            · exact Or.inr (Or.inl ⟨by omega, by omega⟩)
          · exact absurd hc hC
        · rintro (⟨h1, h2⟩ | (⟨h1, h2⟩ | hc))
          · exact Or.inl ⟨h1, by omega⟩
          · exact Or.inl ⟨by omega, by omega⟩
          · exact absurd hc hC
    · rw [if_neg h, covers_cons, covers_cons, inIvl_mk, inIvl_mk,
        ih s₂ e₂ t hpw.1 hpw.2]

theorem mergeIvls_covers (l : List (ℕ × ℕ))
    (hs : l.Pairwise (fun p q => p.1 ≤ q.1)) (t : ℕ) :
    covers (mergeIvls l) t ↔ covers l t := by
  cases l with
  | nil => exact Iff.rfl
  | cons p rest =>
    obtain ⟨s, e⟩ := p
    rw [List.pairwise_cons] at hs
    rw [mergeIvls, mergeGo_covers rest s e t hs.1 hs.2, covers_cons, inIvl_mk]

theorem mergeGo_starts :
    ∀ (rest : List (ℕ × ℕ)) (s e : ℕ), (∀ q ∈ rest, s ≤ q.1) →
      rest.Pairwise (fun p q => p.1 ≤ q.1) →
      ∀ r ∈ mergeGo (s, e) rest, s ≤ r.1 := by
  intro rest
  induction rest with
  | nil =>
    intro s e _ _ r hr
    rw [mergeGo] at hr
    rcases List.mem_singleton.1 hr with rfl
    exact le_refl _
  | cons q rest ih =>
    intro s e hall hpw r hr
    obtain ⟨s₂, e₂⟩ := q
    rw [List.pairwise_cons] at hpw
    have hs₂ : s ≤ s₂ := hall (s₂, e₂) (List.mem_cons_self _ _)
    rw [mergeGo] at hr
    by_cases h : s₂ ≤ e
    · rw [if_pos h] at hr
      exact ih s (max e e₂) (fun q hq => le_trans hs₂ (hpw.1 q hq)) hpw.2 r hr
    · rw [if_neg h] at hr
      rcases List.mem_cons.1 hr with rfl | hr
      · exact le_refl _
      · exact le_trans hs₂ (ih s₂ e₂ hpw.1 hpw.2 r hr)

theorem mergeGo_canon :
    ∀ (rest : List (ℕ × ℕ)) (s e : ℕ), (∀ q ∈ rest, s ≤ q.1) →
      rest.Pairwise (fun p q => p.1 ≤ q.1) → s < e → (∀ q ∈ rest, q.1 < q.2) →
      (mergeGo (s, e) rest).Pairwise (fun p q => p.2 < q.1) ∧
        ∀ r ∈ mergeGo (s, e) rest, r.1 < r.2 := by
  intro rest
  induction rest with
  | nil =>
    intro s e _ _ hse _
    rw [mergeGo]
    refine ⟨List.pairwise_singleton _ _, ?_⟩
    intro r hr
    rcases List.mem_singleton.1 hr with rfl
    exact hse
  | cons q rest ih =>
    intro s e hall hpw hse hlt
    obtain ⟨s₂, e₂⟩ := q
    rw [List.pairwise_cons] at hpw
    have hs₂ : s ≤ s₂ := hall (s₂, e₂) (List.mem_cons_self _ _)
    rw [mergeGo]
    by_cases h : s₂ ≤ e
    · rw [if_pos h]
      exact ih s (max e e₂) (fun q hq => le_trans hs₂ (hpw.1 q hq)) hpw.2
        (by omega) (fun q hq => hlt q (List.mem_cons_of_mem _ hq))
    · rw [if_neg h]
      have hsub := ih s₂ e₂ hpw.1 hpw.2 (hlt (s₂, e₂) (List.mem_cons_self _ _))
        (fun q hq => hlt q (List.mem_cons_of_mem _ hq))
      have hstarts := mergeGo_starts rest s₂ e₂ hpw.1 hpw.2
      constructor
      · rw [List.pairwise_cons]
        refine ⟨fun r hr => ?_, hsub.1⟩
        have := hstarts r hr
        simp only
        omega
      · intro r hr
        rcases List.mem_cons.1 hr with rfl | hr
        · exact hse
        · exact hsub.2 r hr

theorem clipTo_covers (minM maxM : ℕ) (l : List (ℕ × ℕ)) (t : ℕ) :
    covers (clipTo minM maxM l) t ↔ (minM ≤ t ∧ t < maxM ∧ covers l t) := by
  constructor
  · rintro ⟨r, hr, hin⟩
    rw [clipTo, List.mem_filter] at hr
    obtain ⟨hr, hcond⟩ := hr
    rw [List.mem_map] at hr
    obtain ⟨p, hp, rfl⟩ := hr
    rw [inIvl_mk] at hin
    refine ⟨by omega, by omega, ⟨p, hp, ?_⟩⟩
    rw [inIvl_def]
    omega
  · rintro ⟨h1, h2, ⟨p, hp, hin⟩⟩
    rw [inIvl_def] at hin
    refine ⟨(max p.1 minM, min p.2 maxM), ?_, ?_⟩
    · rw [clipTo, List.mem_filter]
      refine ⟨List.mem_map.2 ⟨p, hp, rfl⟩, ?_⟩
      simp only [decide_eq_true_eq]
      omega
    · rw [inIvl_mk]
      omega

theorem clipTo_pairwise (minM maxM : ℕ) (l : List (ℕ × ℕ))
    (h : l.Pairwise (fun p q => p.2 < q.1)) :
    (clipTo minM maxM l).Pairwise (fun p q => p.2 < q.1) := by
  rw [clipTo]
  apply List.Pairwise.filter
  rw [List.pairwise_map]
  refine h.imp ?_
  intro a b hab
  show min a.2 maxM < max b.1 minM
  omega

theorem clipTo_nondegenerate (minM maxM : ℕ) (l : List (ℕ × ℕ)) :
    ∀ r ∈ clipTo minM maxM l, r.1 < r.2 := by
  intro r hr
  rw [clipTo, List.mem_filter] at hr
  exact of_decide_eq_true hr.2

theorem canon_eq_of_covers :
    ∀ (A B : List (ℕ × ℕ)), Canon A → Canon B → (∀ t, covers A t ↔ covers B t) → A = B := by
  intro A
  induction A with
  | nil =>
    intro B _ hB hcov
    cases B with
    | nil => rfl
    | cons q B' =>
      exfalso
      have hq : covers (q :: B') q.1 :=
        ⟨q, List.mem_cons_self _ _, by
          rw [inIvl_def]
          exact ⟨le_refl _, hB.2 q (List.mem_cons_self _ _)⟩⟩
      exact covers_nil q.1 ((hcov q.1).2 hq)
  | cons p A' ih =>
    intro B hA hB hcov
    cases B with
    | nil =>
      exfalso
      have hp : covers (p :: A') p.1 :=
        ⟨p, List.mem_cons_self _ _, by
          rw [inIvl_def]
          exact ⟨le_refl _, hA.2 p (List.mem_cons_self _ _)⟩⟩
      exact covers_nil p.1 ((hcov p.1).1 hp)
    | cons q B' =>
      obtain ⟨hA1, hA2⟩ := hA
      obtain ⟨hB1, hB2⟩ := hB
      rw [List.pairwise_cons] at hA1 hB1
      have hplt : p.1 < p.2 := hA2 p (List.mem_cons_self _ _)
      have hqlt : q.1 < q.2 := hB2 q (List.mem_cons_self _ _)
      have hq_le_p : q.1 ≤ p.1 := by
        have hc1 : covers (q :: B') p.1 :=
          (hcov p.1).1 ⟨p, List.mem_cons_self _ _, by rw [inIvl_def]; omega⟩
        rcases hc1 with ⟨u, hu, hin⟩
        rw [inIvl_def] at hin
        rcases List.mem_cons.1 hu with rfl | hu
        · omega
        · have := hB1.1 u hu
          omega
      have hp_le_q : p.1 ≤ q.1 := by
        have hc1 : covers (p :: A') q.1 :=
          (hcov q.1).2 ⟨q, List.mem_cons_self _ _, by rw [inIvl_def]; omega⟩
        rcases hc1 with ⟨u, hu, hin⟩
        rw [inIvl_def] at hin
        rcases List.mem_cons.1 hu with rfl | hu
        · omega
        · have := hA1.1 u hu
          omega
      have h1 : p.1 = q.1 := le_antisymm hp_le_q hq_le_p
      have hnA : ¬ covers (p :: A') p.2 := by
        rintro ⟨u, hu, hin⟩
        rw [inIvl_def] at hin
        rcases List.mem_cons.1 hu with rfl | hu
        · omega
        · have := hA1.1 u hu
          omega
      have hnB : ¬ covers (q :: B') q.2 := by
        rintro ⟨u, hu, hin⟩
        rw [inIvl_def] at hin
        rcases List.mem_cons.1 hu with rfl | hu
        · omega
        · have := hB1.1 u hu
          omega
      have h2 : p.2 = q.2 := by
        by_contra hne
        rcases Nat.lt_or_ge p.2 q.2 with hlt | hge
        · have hcb : covers (q :: B') p.2 :=
            ⟨q, List.mem_cons_self _ _, by rw [inIvl_def]; omega⟩
          exact hnA ((hcov p.2).2 hcb)
        · have hlt' : q.2 < p.2 := by omega
          have hca : covers (p :: A') q.2 :=
            ⟨p, List.mem_cons_self _ _, by rw [inIvl_def]; omega⟩
          exact hnB ((hcov q.2).1 hca)
      have htails : ∀ t, covers A' t ↔ covers B' t := by
        intro t
        constructor
        · rintro ⟨u, hu, hin⟩
          have htp : p.2 < t := by
            have := hA1.1 u hu
            rw [inIvl_def] at hin
            omega
          have hcb : covers (q :: B') t := (hcov t).1 ⟨u, List.mem_cons_of_mem _ hu, hin⟩
          rcases hcb with ⟨v, hv, hvin⟩
          rcases List.mem_cons.1 hv with rfl | hv
          · exfalso
            rw [inIvl_def] at hvin
            omega
          · exact ⟨v, hv, hvin⟩
        · rintro ⟨u, hu, hin⟩
          have htp : q.2 < t := by
            have := hB1.1 u hu
            rw [inIvl_def] at hin
            omega
          have hca : covers (p :: A') t := (hcov t).2 ⟨u, List.mem_cons_of_mem _ hu, hin⟩
          rcases hca with ⟨v, hv, hvin⟩
          rcases List.mem_cons.1 hv with rfl | hv
          · exfalso
            rw [inIvl_def] at hvin
            omega
          · exact ⟨v, hv, hvin⟩
      have htl : A' = B' :=
        ih B' ⟨hA1.2, fun r hr => hA2 r (List.mem_cons_of_mem _ hr)⟩
          ⟨hB1.2, fun r hr => hB2 r (List.mem_cons_of_mem _ hr)⟩ htails
      have hpq : p = q := by
        rw [Prod.ext_iff]
        exact ⟨h1, h2⟩
      rw [hpq, htl]

theorem get_free_intervals_canon (a : Analyzer) (d : Date) (idx minH maxH : ℕ)
    (hmm : minH < maxH)
    (hwf : ∀ l, alookup d (get_busy_intervals a idx) = some l →
      l.Pairwise (fun p q => p.1 ≤ q.1) ∧ ∀ p ∈ l, p.1 < p.2) :
    Canon (get_free_intervals a d idx minH maxH) := by
  cases h : alookup d (get_busy_intervals a idx) with
  | none =>
    simp only [get_free_intervals, h]
    refine ⟨List.pairwise_singleton _ _, ?_⟩
    intro p hp
    rcases List.mem_singleton.1 hp with rfl
    show 60 * minH < 60 * maxH
    omega
  | some l =>
    simp only [get_free_intervals, h]
    exact sweepFree_canon _ l (hwf l h).1 (fun p hp => (hwf l h).2 p hp) _

theorem get_free_intervals_start_bound (a : Analyzer) (d : Date) (idx minH maxH : ℕ) :
    ∀ q ∈ get_free_intervals a d idx minH maxH, 60 * minH ≤ q.1 := by
  intro q hq
  cases h : alookup d (get_busy_intervals a idx) with
  | none =>
    simp only [get_free_intervals, h] at hq
    rcases List.mem_singleton.1 hq with rfl
    exact le_refl _
  | some l =>
    simp only [get_free_intervals, h] at hq
    exact mem_sweepFree_start _ l _ q hq

theorem get_free_intervals_end_bound (a : Analyzer) (d : Date) (idx minH maxH : ℕ)
    (hub : ∀ l, alookup d (get_busy_intervals a idx) = some l → ∀ p ∈ l, p.1 ≤ 60 * maxH) :
    ∀ q ∈ get_free_intervals a d idx minH maxH, q.2 ≤ 60 * maxH := by
  intro q hq
  cases h : alookup d (get_busy_intervals a idx) with
  | none =>
    simp only [get_free_intervals, h] at hq
    rcases List.mem_singleton.1 hq with rfl
    exact le_refl _
  | some l =>
    simp only [get_free_intervals, h] at hq
    exact mem_sweepFree_end _ l (hub l h) _ q hq

theorem mem_interPiece {p q x : ℕ × ℕ}
    (hx : x ∈ (if max p.1 q.1 < min p.2 q.2 then
        some (max p.1 q.1, min p.2 q.2) else none)) :
    x = (max p.1 q.1, min p.2 q.2) ∧ max p.1 q.1 < min p.2 q.2 := by
  by_cases hc : max p.1 q.1 < min p.2 q.2
  · rw [if_pos hc] at hx
    exact ⟨(Option.some.inj (Option.mem_def.mp hx)).symm, hc⟩
  · rw [if_neg hc] at hx
    simp at hx

theorem covers_interSect (A B : List (ℕ × ℕ)) (t : ℕ) :
    covers (interSect A B) t ↔ (covers A t ∧ covers B t) := by
  constructor
  · rintro ⟨r, hr, hin⟩
    rw [interSect, List.mem_flatMap] at hr
    obtain ⟨p, hp, hr⟩ := hr
    rw [List.mem_filterMap] at hr
    obtain ⟨q, hq, hr⟩ := hr
    obtain ⟨rfl, hc⟩ := mem_interPiece hr
    rw [inIvl_mk] at hin
    exact ⟨⟨p, hp, by rw [inIvl_def]; omega⟩, ⟨q, hq, by rw [inIvl_def]; omega⟩⟩
  · rintro ⟨⟨p, hp, hpin⟩, ⟨q, hq, hqin⟩⟩
    rw [inIvl_def] at hpin hqin
    refine ⟨(max p.1 q.1, min p.2 q.2), ?_, ?_⟩
    · rw [interSect, List.mem_flatMap]
      refine ⟨p, hp, ?_⟩
      rw [List.mem_filterMap]
      refine ⟨q, hq, ?_⟩
      rw [if_pos (by omega)]
    · rw [inIvl_mk]
      omega

theorem canon_interSect (A B : List (ℕ × ℕ)) (hA : Canon A) (hB : Canon B) :
    Canon (interSect A B) := by
  constructor
  · rw [interSect, List.pairwise_flatMap]
    constructor
    · intro p hp
      rw [List.pairwise_filterMap]
      refine hB.1.imp ?_
      intro q q₂ hlt x hx y hy
      obtain ⟨rfl, hcx⟩ := mem_interPiece hx
      obtain ⟨rfl, hcy⟩ := mem_interPiece hy
      show min p.2 q.2 < max p.1 q₂.1
      omega
    · refine hA.1.imp ?_
      intro p p₂ hlt x hx y hy
      rw [List.mem_filterMap] at hx hy
      obtain ⟨q, hq, hx⟩ := hx
      obtain ⟨q₂, hq₂, hy⟩ := hy
      obtain ⟨rfl, hcx⟩ := mem_interPiece hx
      obtain ⟨rfl, hcy⟩ := mem_interPiece hy
      show min p.2 q.2 < max p₂.1 q₂.1
      omega
  · intro r hr
    rw [interSect, List.mem_flatMap] at hr
    obtain ⟨p, hp, hr⟩ := hr
    rw [List.mem_filterMap] at hr
    obtain ⟨q, hq, hr⟩ := hr
    obtain ⟨rfl, hc⟩ := mem_interPiece hr
    exact hc

theorem covers_interFold (a : Analyzer) (d : Date) (minH maxH : ℕ) :
    ∀ (rest : List ℕ) (common : List (ℕ × ℕ)) (t : ℕ),
      covers (interFold a d minH maxH common rest) t ↔
        (covers common t ∧ ∀ i ∈ rest, covers (get_free_intervals a d i minH maxH) t) := by
  intro rest
  induction rest with
  | nil =>
    intro common t
    rw [interFold]
    simp
  | cons i rest ih =>
    intro common t
    simp only [interFold]
    by_cases h : interSect common (get_free_intervals a d i minH maxH) = []
    · rw [if_pos h]
      constructor
      · intro hc
        exact absurd hc (covers_nil t)
      · rintro ⟨hcom, hall⟩
        have hx := (covers_interSect common (get_free_intervals a d i minH maxH) t).2
          ⟨hcom, hall i (List.mem_cons_self _ _)⟩
        rw [h] at hx
        exact absurd hx (covers_nil t)
    · rw [if_neg h, ih, covers_interSect]
      constructor
      · rintro ⟨⟨h1, h2⟩, h3⟩
        refine ⟨h1, fun j hj => ?_⟩
        rcases List.mem_cons.1 hj with rfl | hj
        · exact h2
        · exact h3 j hj
      · rintro ⟨h1, h2⟩
        exact ⟨⟨h1, h2 i (List.mem_cons_self _ _)⟩,
          fun j hj => h2 j (List.mem_cons_of_mem _ hj)⟩

theorem canon_interFold (a : Analyzer) (d : Date) (minH maxH : ℕ) :
    ∀ (rest : List ℕ) (common : List (ℕ × ℕ)), Canon common →
      (∀ i ∈ rest, Canon (get_free_intervals a d i minH maxH)) →
      Canon (interFold a d minH maxH common rest) := by
  intro rest
  induction rest with
  | nil =>
    intro common hc _
    rw [interFold]
    exact hc
  | cons i rest ih =>
    intro common hc hall
    simp only [interFold]
    by_cases h : interSect common (get_free_intervals a d i minH maxH) = []
    · rw [if_pos h]
      exact ⟨List.Pairwise.nil, by intro p hp; simp at hp⟩
    · rw [if_neg h]
      exact ih _ (canon_interSect _ _ hc (hall i (List.mem_cons_self _ _)))
        (fun j hj => hall j (List.mem_cons_of_mem _ hj))

theorem insOne_perm {α : Type} (le : α → α → Bool) (a : α) :
    ∀ l : List α, List.Perm (insOne le a l) (a :: l) := by
  intro l
  induction l with
  | nil => exact List.Perm.refl _
  | cons b l ih =>
    rw [insOne]
    by_cases h : le a b = true
    · rw [if_pos h]
    · rw [if_neg h]
      exact List.Perm.trans (List.Perm.cons b ih) (List.Perm.swap a b l)

theorem insSort_perm {α : Type} (le : α → α → Bool) :
    ∀ l : List α, List.Perm (insSort le l) l := by
  intro l
  induction l with
  | nil => exact List.Perm.refl _
  | cons a l ih =>
    rw [insSort]
    exact List.Perm.trans (insOne_perm le a (insSort le l)) (List.Perm.cons a ih)

theorem insOne_pairwise {α : Type} (le : α → α → Bool)
    (htot : ∀ x y, le x y = false → le y x = true)
    (htrans : ∀ x y z, le x y = true → le y z = true → le x z = true) :
    ∀ (l : List α) (a : α), l.Pairwise (fun x y => le x y = true) →
      (insOne le a l).Pairwise (fun x y => le x y = true) := by
  intro l
  induction l with
  | nil =>
    intro a _
    exact List.pairwise_singleton _ _
  | cons b l ih =>
    intro a hpw
    rw [List.pairwise_cons] at hpw
    rw [insOne]
    by_cases h : le a b = true
    · rw [if_pos h, List.pairwise_cons]
      refine ⟨?_, List.pairwise_cons.2 hpw⟩
      intro y hy
      rcases List.mem_cons.1 hy with rfl | hy
      · exact h
      · exact htrans a b y h (hpw.1 y hy)
    · rw [if_neg h, List.pairwise_cons]
      refine ⟨?_, ih a hpw.2⟩
      intro y hy
      rcases List.mem_cons.1 ((insOne_perm le a l).mem_iff.1 hy) with hya | hy₂
      · rw [hya]
        refine htot a b ?_
        revert h
        cases le a b <;> simp
      · exact hpw.1 y hy₂

theorem insSort_pairwise {α : Type} (le : α → α → Bool)
    (htot : ∀ x y, le x y = false → le y x = true)
    (htrans : ∀ x y z, le x y = true → le y z = true → le x z = true) :
    ∀ l : List α, (insSort le l).Pairwise (fun x y => le x y = true) := by
  intro l
  induction l with
  | nil => exact List.Pairwise.nil
  | cons a l ih =>
    rw [insSort]
    exact insOne_pairwise le htot htrans _ a ih

theorem startLe_total : ∀ p q : ℕ × ℕ, startLe p q = false → startLe q p = true := by
  intro p q h
  simp only [startLe, decide_eq_false_iff_not, not_le] at h
  simp only [startLe, decide_eq_true_eq]
  omega

theorem startLe_trans : ∀ p q r : ℕ × ℕ,
    startLe p q = true → startLe q r = true → startLe p r = true := by
  intro p q r h1 h2
  simp only [startLe, decide_eq_true_eq] at h1 h2 ⊢
  omega

theorem durGe_total : ∀ p q : ℕ × ℕ, durGe p q = false → durGe q p = true := by
  intro p q h
  simp only [durGe, decide_eq_false_iff_not, not_le] at h
  simp only [durGe, decide_eq_true_eq]
  omega

theorem durGe_trans : ∀ p q r : ℕ × ℕ,
    durGe p q = true → durGe q r = true → durGe p r = true := by
  intro p q r h1 h2
  simp only [durGe, decide_eq_true_eq] at h1 h2 ⊢
  omega

theorem firstFitWindow_spec (width : ℕ) (d : Date) :
    ∀ (l : List (ℕ × ℕ)) (w : FoundWindow), firstFitWindow width d l = some w →
      ∃ pre p post, l = pre ++ p :: post ∧
        (∀ q ∈ pre, interval_duration_minutes q < (width : ℤ)) ∧
        (width : ℤ) ≤ interval_duration_minutes p ∧
        w.date = d ∧ w.start_time = p.1 ∧ w.end_time = p.1 + width ∧
        w.duration_minutes = width := by
  intro l
  induction l with
  | nil =>
    intro w hw
    rw [firstFitWindow] at hw
    exact Option.noConfusion hw
  | cons p rest ih =>
    intro w hw
    rw [firstFitWindow] at hw
    by_cases h : (width : ℤ) ≤ interval_duration_minutes p
    · rw [if_pos h] at hw
      rcases Option.some.inj hw with rfl
      refine ⟨[], p, rest, by simp, by simp, h, rfl, rfl, ?_, rfl⟩
      show 60 * ((p.1 + width) / 60) + (p.1 + width) % 60 = p.1 + width
      exact Nat.div_add_mod _ 60
    · rw [if_neg h] at hw
      obtain ⟨pre, pp, post, h1, h2, h3, h4, h5, h6, h7⟩ := ih w hw
      refine ⟨p :: pre, pp, post, by rw [List.cons_append, h1], ?_, h3, h4, h5, h6, h7⟩
      intro q hq
      rcases List.mem_cons.1 hq with rfl | hq
      · omega
      · exact h2 q hq

theorem nearestLoop_spec (a : Analyzer) (width idx : ℕ) (iw ih : Bool)
    (dl : Option Date) (minH maxH : ℕ) :
    ∀ (n : ℕ) (d : Date) (w : FoundWindow),
      nearestLoop a width idx iw ih dl minH maxH n d = some w →
      ∃ k, k < n ∧
        (∀ j, j < k → ¬(is_valid_date a (dateAdd d j) iw ih dl = true ∧
          (firstFitWindow width (dateAdd d j)
            (get_free_intervals a (dateAdd d j) idx minH maxH)).isSome = true)) ∧
        is_valid_date a (dateAdd d k) iw ih dl = true ∧
        firstFitWindow width (dateAdd d k)
          (get_free_intervals a (dateAdd d k) idx minH maxH) = some w := by
  intro n
  induction n with
  | zero =>
    intro d w h
    rw [nearestLoop] at h
    exact Option.noConfusion h
  | succ n ihn =>
    intro d w h
    rw [nearestLoop] at h
    by_cases hv : is_valid_date a d iw ih dl = true
    · rw [if_pos hv] at h
      cases hf : firstFitWindow width d (get_free_intervals a d idx minH maxH) with
      | some w₀ =>
        rw [hf] at h
        rcases Option.some.inj h with rfl
        exact ⟨0, Nat.succ_pos n, by omega, hv, hf⟩
      | none =>
        rw [hf] at h
        obtain ⟨k, hk, hmin, hvk, hfk⟩ := ihn (succDate d) w h
        refine ⟨k + 1, by omega, ?_, hvk, hfk⟩
        intro j hj
        cases j with
        | zero =>
          rintro ⟨_, hsome⟩
          rw [show dateAdd d 0 = d from rfl, hf] at hsome
          simp at hsome
        | succ j => exact hmin j (by omega)
    · rw [if_neg hv] at h
      obtain ⟨k, hk, hmin, hvk, hfk⟩ := ihn (succDate d) w h
      refine ⟨k + 1, by omega, ?_, hvk, hfk⟩
      intro j hj
      cases j with
      | zero =>
        rintro ⟨hval, _⟩
        exact hv hval
      | succ j => exact hmin j (by omega)

theorem dayLoop_acc_le (minw total : ℕ) (d : Date) :
    ∀ (l : List (ℕ × ℕ)) (acc : ℕ), acc ≤ total →
      (dayLoop minw total d l acc).2 ≤ total := by
  intro l
  induction l with
  | nil =>
    intro acc h
    rw [dayLoop]
    exact h
  | cons p rest ih =>
    intro acc h
    rw [dayLoop]
    by_cases h1 : (minw : ℤ) ≤ interval_duration_minutes p
    · rw [if_pos h1]
      dsimp only
      by_cases h2 : (minw : ℤ) ≤
          min (interval_duration_minutes p) ((total : ℤ) - (acc : ℤ))
      · rw [if_pos h2]
        by_cases h3 : total ≤
            acc + (min (interval_duration_minutes p) ((total : ℤ) - (acc : ℤ))).toNat
        · rw [if_pos h3]
          dsimp only
          omega
        · rw [if_neg h3]
          dsimp only
          exact ih _ (by omega)
      · rw [if_neg h2]
        exact ih _ h
    · rw [if_neg h1]
      exact ih _ h

theorem dayLoop_windows (minw total : ℕ) (d : Date) :
    ∀ (l : List (ℕ × ℕ)) (acc : ℕ),
      ∀ w ∈ (dayLoop minw total d l acc).1, minw ≤ w.duration_minutes := by
  intro l
  induction l with
  | nil =>
    intro acc w hw
    rw [dayLoop] at hw
    simp at hw
  | cons p rest ih =>
    intro acc w hw
    rw [dayLoop] at hw
    by_cases h1 : (minw : ℤ) ≤ interval_duration_minutes p
    · rw [if_pos h1] at hw
      dsimp only at hw
      by_cases h2 : (minw : ℤ) ≤
          min (interval_duration_minutes p) ((total : ℤ) - (acc : ℤ))
      · rw [if_pos h2] at hw
        by_cases h3 : total ≤
            acc + (min (interval_duration_minutes p) ((total : ℤ) - (acc : ℤ))).toNat
        · rw [if_pos h3] at hw
          dsimp only at hw
          rcases List.mem_singleton.1 hw with rfl
          show minw ≤ (min (interval_duration_minutes p) ((total : ℤ) - (acc : ℤ))).toNat
          omega
        · rw [if_neg h3] at hw
          dsimp only at hw
          rcases List.mem_cons.1 hw with rfl | hw
          · show minw ≤ (min (interval_duration_minutes p) ((total : ℤ) - (acc : ℤ))).toNat
            omega
          · exact ih _ w hw
      · rw [if_neg h2] at hw
        exact ih _ w hw
    · rw [if_neg h1] at hw
      exact ih _ w hw

theorem volumeResultOf_some (total acc : ℕ) (ws : List VWindow) (res : VolumeResult)
    (h : volumeResultOf total acc ws = some res) :
    total ≤ acc ∧ res.total_minutes = acc ∧ res.windows = ws := by
  rw [volumeResultOf] at h
  by_cases hc : total ≤ acc
  · rw [if_pos hc] at h
    rcases Option.some.inj h with rfl
    exact ⟨hc, rfl, rfl⟩
  · rw [if_neg hc] at h
    exact Option.noConfusion h

theorem volumeLoop_some (a : Analyzer) (idx : ℕ) (iw ih : Bool) (dl : Option Date)
    (minH maxH minw total : ℕ) :
    ∀ (n : ℕ) (d : Date) (acc : ℕ) (ws : List VWindow) (res : VolumeResult),
      acc ≤ total → (∀ w ∈ ws, minw ≤ w.duration_minutes) →
      volumeLoop a idx iw ih dl minH maxH minw total n d acc ws = some res →
      (res.total_minutes = total ∧ ∀ w ∈ res.windows, minw ≤ w.duration_minutes) := by
  intro n
  induction n with
  | zero =>
    intro d acc ws res hacc hws h
    rw [volumeLoop] at h
    obtain ⟨h1, h2, h3⟩ := volumeResultOf_some total acc ws res h
    exact ⟨by omega, by rw [h3]; exact hws⟩
  | succ n ihn =>
    intro d acc ws res hacc hws h
    rw [volumeLoop] at h
    by_cases h0 : total ≤ acc
    · rw [if_pos h0] at h
      obtain ⟨h1, h2, h3⟩ := volumeResultOf_some total acc ws res h
      exact ⟨by omega, by rw [h3]; exact hws⟩
    · rw [if_neg h0] at h
      by_cases hv : is_valid_date a d iw ih dl = true
      · rw [if_pos hv] at h
        dsimp only at h
        refine ihn _ _ _ _ ?_ ?_ h
        · exact dayLoop_acc_le minw total d _ acc (by omega)
        · intro w hw
          rcases List.mem_append.1 hw with hw | hw
          · exact hws w hw
          · exact dayLoop_windows minw total d _ acc w hw
      · rw [if_neg hv] at h
        exact ihn _ _ _ _ hacc hws h

theorem specConsumeChunks_zero (minw : ℕ) (d : Date) :
    ∀ l, specConsumeChunks minw d 0 l = ([], 0) := by
  intro l
  cases l with
  | nil => rw [specConsumeChunks]
  | cons p rest =>
    rw [specConsumeChunks, if_pos rfl]

theorem dayLoop_eq_specConsume (minw total : ℕ) (d : Date) :
    ∀ (l : List (ℕ × ℕ)) (acc : ℕ), acc < total →
      dayLoop minw total d l acc =
        ((specConsumeChunks minw d (total - acc) l).1,
          total - (specConsumeChunks minw d (total - acc) l).2) := by
  intro l
  induction l with
  | nil =>
    intro acc h
    rw [dayLoop, specConsumeChunks]
    rw [show total - (total - acc) = acc from by omega]
  | cons p rest ih =>
    intro acc hacc
    have hrem0 : ¬ (total - acc = 0) := by omega
    have hcast : ((total - acc : ℕ) : ℤ) = (total : ℤ) - (acc : ℤ) := by omega
    rw [dayLoop, specConsumeChunks, if_neg hrem0]
    dsimp only
    rw [hcast]
    by_cases h1 : (minw : ℤ) ≤ interval_duration_minutes p
    · rw [if_pos h1]
      by_cases h2 : (minw : ℤ) ≤
          min (interval_duration_minutes p) ((total : ℤ) - (acc : ℤ))
      · rw [if_pos h2, if_pos h2]
        have hend : 60 * ((p.1 +
            (min (interval_duration_minutes p) ((total : ℤ) - (acc : ℤ))).toNat) / 60) +
            (p.1 + (min (interval_duration_minutes p) ((total : ℤ) - (acc : ℤ))).toNat) % 60
            = p.1 + (min (interval_duration_minutes p) ((total : ℤ) - (acc : ℤ))).toNat :=
          Nat.div_add_mod _ 60
        by_cases h3 : total ≤
            acc + (min (interval_duration_minutes p) ((total : ℤ) - (acc : ℤ))).toNat
        · rw [if_pos h3]
          rw [show total - acc -
              (min (interval_duration_minutes p) ((total : ℤ) - (acc : ℤ))).toNat = 0
            from by omega]
          rw [specConsumeChunks_zero]
          dsimp only
          rw [hend]
          rw [show acc + (min (interval_duration_minutes p)
              ((total : ℤ) - (acc : ℤ))).toNat = total from by omega]
          rw [show total - 0 = total from by omega]
        · rw [if_neg h3]
          dsimp only
          rw [ih _ (by omega)]
          rw [show total - (acc + (min (interval_duration_minutes p)
              ((total : ℤ) - (acc : ℤ))).toNat) = total - acc -
              (min (interval_duration_minutes p) ((total : ℤ) - (acc : ℤ))).toNat
            from by omega]
          rw [hend]
      · rw [if_neg h2, if_neg h2]
        exact ih acc hacc
    · have h2 : ¬ ((minw : ℤ) ≤
          min (interval_duration_minutes p) ((total : ℤ) - (acc : ℤ))) := by omega
      rw [if_neg h1, if_neg h2]
      exact ih acc hacc

/-- C1 (amended): for a date whose recorded busy list is sorted ascending by
start, has `start < end` for every interval, and — the amendment — has no
interval starting after `maxEndHour:00`, the free intervals returned by
`_get_free_intervals`, together with the merged busy intervals clipped to
the day bounds, exactly tile `[minStartHour:00, maxEndHour:00)`: a minute is
in the band iff it is covered by one of the two families, the families never
overlap each other, each family is internally disjoint and non-degenerate,
and a date with zero recorded busy intervals yields exactly
`[(minStart, maxEnd)]`. -/
theorem free_intervals_tiling (a : Analyzer) (d : Date) (idx minH maxH : ℕ)
    (busy : List (ℕ × ℕ)) (hmm : minH < maxH)
    (hb : alookup d (get_busy_intervals a idx) = some busy ∨
      (alookup d (get_busy_intervals a idx) = none ∧ busy = []))
    (hsort : busy.Pairwise fun p q => p.1 ≤ q.1)
    (hlt : ∀ p ∈ busy, p.1 < p.2)
    (hub : ∀ p ∈ busy, p.1 ≤ 60 * maxH) :
    (∀ t, (60 * minH ≤ t ∧ t < 60 * maxH) ↔
      (covers (get_free_intervals a d idx minH maxH) t ∨
        covers (clipTo (60 * minH) (60 * maxH) (mergeIvls busy)) t)) ∧
    (∀ t, ¬(covers (get_free_intervals a d idx minH maxH) t ∧
        covers (clipTo (60 * minH) (60 * maxH) (mergeIvls busy)) t)) ∧
    (get_free_intervals a d idx minH maxH).Pairwise (fun p q => p.2 ≤ q.1) ∧
    (∀ p ∈ get_free_intervals a d idx minH maxH, p.1 < p.2) ∧
    (clipTo (60 * minH) (60 * maxH) (mergeIvls busy)).Pairwise (fun p q => p.2 ≤ q.1) ∧
    (∀ p ∈ clipTo (60 * minH) (60 * maxH) (mergeIvls busy), p.1 < p.2) ∧
    (busy = [] → get_free_intervals a d idx minH maxH = [(60 * minH, 60 * maxH)]) := by
  rcases hb with hb | ⟨hb, rfl⟩
  · have hfreecov : ∀ t, covers (get_free_intervals a d idx minH maxH) t ↔
        (60 * minH ≤ t ∧ t < 60 * maxH ∧ ¬ covers busy t) := by
      intro t
      simp only [get_free_intervals, hb]
      exact sweepFree_covers _ busy hsort hub _ t
    have hmccov : ∀ t, covers (clipTo (60 * minH) (60 * maxH) (mergeIvls busy)) t ↔
        (60 * minH ≤ t ∧ t < 60 * maxH ∧ covers busy t) := by
      intro t
      rw [clipTo_covers, mergeIvls_covers busy hsort t]
    have hfcanon : Canon (get_free_intervals a d idx minH maxH) := by
      refine get_free_intervals_canon a d idx minH maxH hmm ?_
      intro l hl
      rw [hb] at hl
      rcases Option.some.inj hl with rfl
      exact ⟨hsort, hlt⟩
    have hmc_pairwise : (mergeIvls busy).Pairwise (fun p q => p.2 < q.1) := by
      cases busy with
      | nil => exact List.Pairwise.nil
      | cons p rest =>
        obtain ⟨s, e⟩ := p
        rw [List.pairwise_cons] at hsort
        rw [mergeIvls]
        exact (mergeGo_canon rest s e hsort.1 hsort.2
          (hlt (s, e) (List.mem_cons_self _ _))
          (fun q hq => hlt q (List.mem_cons_of_mem _ hq))).1
    refine ⟨?_, ?_, ?_, hfcanon.2, ?_, clipTo_nondegenerate _ _ _, ?_⟩
    · intro t
      rw [hfreecov, hmccov]
      constructor
      · intro h
        by_cases hc : covers busy t
        · exact Or.inr ⟨h.1, h.2, hc⟩
        · exact Or.inl ⟨h.1, h.2, hc⟩
      · rintro (⟨h1, h2, _⟩ | ⟨h1, h2, _⟩) <;> exact ⟨h1, h2⟩
    · intro t
      rw [hfreecov, hmccov]
      rintro ⟨⟨_, _, hn⟩, ⟨_, _, hc⟩⟩
      exact hn hc
    · exact hfcanon.1.imp le_of_lt
    · exact (clipTo_pairwise _ _ _ hmc_pairwise).imp le_of_lt
    · intro hbusy
      subst hbusy
      simp only [get_free_intervals, hb]
      rw [sweepFree, if_pos (by omega : 60 * minH < 60 * maxH)]
  · have hfree : get_free_intervals a d idx minH maxH = [(60 * minH, 60 * maxH)] := by
      simp [get_free_intervals, hb]
    have hclip : clipTo (60 * minH) (60 * maxH) (mergeIvls []) = [] := rfl
    rw [hfree, hclip]
    refine ⟨?_, ?_, List.pairwise_singleton _ _, ?_, List.Pairwise.nil, ?_, fun _ => rfl⟩
    · intro t
      constructor
      · intro h
        exact Or.inl ⟨(60 * minH, 60 * maxH), List.mem_singleton_self _, by rw [inIvl_mk]; omega⟩
      · rintro (⟨p, hp, hin⟩ | hc)
        · rcases List.mem_singleton.1 hp with rfl
          rw [inIvl_mk] at hin
          omega
        · exact absurd hc (covers_nil t)
    · rintro t ⟨_, hc⟩
      exact absurd hc (covers_nil t)
    · intro p hp
      rcases List.mem_singleton.1 hp with rfl
      show 60 * minH < 60 * maxH
      omega
    · intro p hp
      simp at hp

/-- C1 witness: the tiling theorem applied to a concrete two-lesson calendar
(busy 09:20–10:55 and 11:10–12:45, bounds 7–23). -/
theorem free_intervals_tiling_witness :
    (∀ p ∈ [((560 : ℕ), (655 : ℕ)), (670, 765)], p.1 ≤ 60 * 23) ∧
    (∀ t, (60 * 7 ≤ t ∧ t < 60 * 23) ↔
      (covers (get_free_intervals exAnalyzer exDate 0 7 23) t ∨
        covers (clipTo (60 * 7) (60 * 23) (mergeIvls [(560, 655), (670, 765)])) t)) :=
  ⟨by decide,
    (free_intervals_tiling exAnalyzer exDate 0 7 23 [(560, 655), (670, 765)]
      (by omega) (Or.inl (by decide)) (by decide) (by decide) (by decide)).1⟩

/-- C1 counterexample: with a (sorted, well-formed) busy interval lying
beyond the 23:00 day bound — lesson `"23:15-23:30"` — the free interval
`(420, 1395)` runs past `maxEndHour:00`, so free plus clipped busy does NOT
tile `[7:00, 23:00)`: minute 1385 lies outside the band yet is covered. -/
theorem free_intervals_tiling_cex :
    (alookup exDate (get_busy_intervals lateAnalyzer 0) = some [(1395, 1410)]) ∧
    ([((1395 : ℕ), (1410 : ℕ))].Pairwise fun p q => p.1 ≤ q.1) ∧
    (∀ p ∈ [((1395 : ℕ), (1410 : ℕ))], p.1 < p.2) ∧
    ¬ (∀ t, (60 * 7 ≤ t ∧ t < 60 * 23) ↔
        (covers (get_free_intervals lateAnalyzer exDate 0 7 23) t ∨
          covers (clipTo (60 * 7) (60 * 23) (mergeIvls [(1395, 1410)])) t)) := by
  refine ⟨by decide, by decide, by decide, ?_⟩
  intro h
  have h1 : covers (get_free_intervals lateAnalyzer exDate 0 7 23) 1385 := by decide
  have h2 := (h 1385).2 (Or.inl h1)
  omega

/-- C2 (amended): every successful `find_nearest_window_by_width` call — on a
store whose recorded busy intervals never start after `maxEndHour:00` (the
amendment) — returns a window of exactly `width_minutes`, starting no
earlier than `minStartHour:00` and ending no later than `maxEndHour:00`, on
the first valid day within the day budget that has a fitting free interval,
truncated from the start of the first (in resolver order) free interval of
duration at least `width_minutes`. -/
theorem find_nearest_window_spec (a : Analyzer) (width : ℕ) (start : Date)
    (idx : ℕ) (iw ih : Bool) (dl : Option Date) (max_days minH maxH : ℕ)
    (w : FoundWindow)
    (hub : ∀ dd l, alookup dd (get_busy_intervals a idx) = some l →
      ∀ p ∈ l, p.1 ≤ 60 * maxH)
    (hres : find_nearest_window_by_width a width start idx iw ih dl max_days minH maxH
      = some w) :
    w.duration_minutes = width ∧
    w.end_time = w.start_time + width ∧
    60 * minH ≤ w.start_time ∧
    w.end_time ≤ 60 * maxH ∧
    ∃ k, k < max_days ∧ w.date = dateAdd start k ∧
      is_valid_date a (dateAdd start k) iw ih dl = true ∧
      (∀ j, j < k → ¬(is_valid_date a (dateAdd start j) iw ih dl = true ∧
        (firstFitWindow width (dateAdd start j)
          (get_free_intervals a (dateAdd start j) idx minH maxH)).isSome = true)) ∧
      ∃ pre p post,
        get_free_intervals a (dateAdd start k) idx minH maxH = pre ++ p :: post ∧
        (∀ q ∈ pre, interval_duration_minutes q < (width : ℤ)) ∧
        (width : ℤ) ≤ interval_duration_minutes p ∧
        w.start_time = p.1 := by
  rw [find_nearest_window_by_width] at hres
  by_cases hg : a.schedules = [] ∨ a.schedules.length ≤ idx
  · rw [if_pos hg] at hres
    exact Option.noConfusion hres
  · rw [if_neg hg] at hres
    obtain ⟨k, hk, hmin, hv, hf⟩ :=
      nearestLoop_spec a width idx iw ih dl minH maxH max_days start w hres
    obtain ⟨pre, p, post, heq, hpre, hfit, hd, hst, hend, hdur⟩ :=
      firstFitWindow_spec width (dateAdd start k) _ w hf
    have hp_mem : p ∈ get_free_intervals a (dateAdd start k) idx minH maxH := by
      rw [heq]
      exact List.mem_append.2 (Or.inr (List.mem_cons_self _ _))
    have hstart_lb :=
      get_free_intervals_start_bound a (dateAdd start k) idx minH maxH p hp_mem
    have hend_ub :=
      get_free_intervals_end_bound a (dateAdd start k) idx minH maxH
        (hub (dateAdd start k)) p hp_mem
    have hwid : p.1 + width ≤ p.2 := by
      have h' := hfit
      rw [interval_duration_minutes] at h'
      omega
    refine ⟨hdur, by rw [hend, hst], by rw [hst]; exact hstart_lb, ?_,
      k, hk, hd, hv, hmin, pre, p, post, heq, hpre, hfit, hst⟩
    rw [hend]
    omega

/-- C2 witness: on the two-lesson calendar, a 120-minute request from
2025-02-17 yields the window 7:00–9:00 of that same day, inside the bounds. -/
theorem find_nearest_window_spec_witness :
    (find_nearest_window_by_width exAnalyzer 120 exDate 0 true true none 5 7 23 =
      some ⟨exDate, 420, 540, 120⟩) ∧
    (FoundWindow.mk exDate 420 540 120).duration_minutes = 120 ∧
    (FoundWindow.mk exDate 420 540 120).end_time ≤ 60 * 23 := by
  have hub : ∀ dd l, alookup dd (get_busy_intervals exAnalyzer 0) = some l →
      ∀ p ∈ l, p.1 ≤ 60 * 23 := by
    intro dd l h
    rw [show get_busy_intervals exAnalyzer 0 = [(exDate, [(560, 655), (670, 765)])]
      from by decide] at h
    rw [alookup] at h
    by_cases hdd : dd = exDate
    · rw [if_pos hdd] at h
      rcases Option.some.inj h with rfl
      decide
    · rw [if_neg hdd] at h
      exact Option.noConfusion h
  have happ := find_nearest_window_spec exAnalyzer 120 exDate 0 true true none 5 7 23
    ⟨exDate, 420, 540, 120⟩ hub (by decide)
  exact ⟨by decide, happ.1, happ.2.2.2.1⟩

/-- C2 counterexample: with a lesson `"23:15-23:30"` beyond the 23:00 bound,
a successful 975-minute request returns a window ending at 23:15 > 23:00 —
the claim's “ends no later than maxEndHour:00” fails on the code as stated. -/
theorem find_nearest_window_spec_cex :
    find_nearest_window_by_width lateAnalyzer 975 exDate 0 true true none 1 7 23 =
      some ⟨exDate, 420, 1395, 975⟩ ∧
    60 * 23 < 1395 := by
  exact ⟨by decide, by decide⟩

/-- C3: every successful `find_window_by_volume` call reports a consumed
total of at least `total_minutes`, every returned chunk is at least
`min_width_minutes` long, the per-day interval list is processed in
duration-descending order (the sort used is a permutation, sorted by
descending duration), and the per-day consumption loop is exactly the
spec's rule: consume `min(interval duration, remaining)` from an interval's
start when that chunk is at least the minimum width, skip the interval
otherwise, and stop as soon as nothing remains. -/
theorem find_window_by_volume_spec (a : Analyzer) (total minw : ℕ) (start : Date)
    (idx : ℕ) (iw ih : Bool) (dl : Option Date) (max_days minH maxH : ℕ)
    (res : VolumeResult)
    (hres : find_window_by_volume a total minw start idx iw ih dl max_days minH maxH
      = some res) :
    total ≤ res.total_minutes ∧
    (∀ w ∈ res.windows, minw ≤ w.duration_minutes) ∧
    (∀ l : List (ℕ × ℕ), List.Perm (insSort durGe l) l ∧
      (insSort durGe l).Pairwise
        (fun p q => interval_duration_minutes q ≤ interval_duration_minutes p)) ∧
    (∀ (dd : Date) (l : List (ℕ × ℕ)) (acc : ℕ), acc < total →
      dayLoop minw total dd l acc =
        ((specConsumeChunks minw dd (total - acc) l).1,
          total - (specConsumeChunks minw dd (total - acc) l).2)) := by
  rw [find_window_by_volume] at hres
  by_cases hg : a.schedules = [] ∨ a.schedules.length ≤ idx
  · rw [if_pos hg] at hres
    exact Option.noConfusion hres
  · rw [if_neg hg] at hres
    have hmain := volumeLoop_some a idx iw ih dl minH maxH minw total max_days start 0 []
      res (by omega) (by intro w hw; simp at hw) hres
    refine ⟨by omega, hmain.2, ?_, ?_⟩
    · intro l
      refine ⟨insSort_perm durGe l, ?_⟩
      have hpw := insSort_pairwise durGe durGe_total durGe_trans l
      exact hpw.imp (fun hab => of_decide_eq_true hab)
    · intro dd l acc hacc
      exact dayLoop_eq_specConsume minw total dd l acc hacc

/-- C3 witness: a 120-minute volume request with 60-minute minimum width on
the two-lesson calendar consumes one 120-minute chunk from the largest free
interval (12:45–23:00). -/
theorem find_window_by_volume_spec_witness :
    (find_window_by_volume exAnalyzer 120 60 exDate 0 true true none 2 7 23 =
      some ⟨120, 1, [⟨exDate, 765, 885, 120⟩]⟩) ∧
    120 ≤ (VolumeResult.mk 120 1 [⟨exDate, 765, 885, 120⟩]).total_minutes ∧
    (∀ w ∈ (VolumeResult.mk 120 1 [⟨exDate, 765, 885, 120⟩]).windows,
      60 ≤ w.duration_minutes) := by
  have happ := find_window_by_volume_spec exAnalyzer 120 60 exDate 0 true true none
    2 7 23 ⟨120, 1, [⟨exDate, 765, 885, 120⟩]⟩ (by decide)
  exact ⟨by decide, happ.1, happ.2.1⟩

/-- C10: a successful `find_window_by_volume` call reports a consumed total
exactly equal to the requested `total_minutes`: every chunk is capped at
`min(interval duration, total - accumulated)`, so the running total never
overshoots, and success requires reaching the target. -/
theorem find_window_by_volume_total_exact (a : Analyzer) (total minw : ℕ)
    (start : Date) (idx : ℕ) (iw ih : Bool) (dl : Option Date)
    (max_days minH maxH : ℕ) (res : VolumeResult)
    (hres : find_window_by_volume a total minw start idx iw ih dl max_days minH maxH
      = some res) :
    res.total_minutes = total := by
  rw [find_window_by_volume] at hres
  by_cases hg : a.schedules = [] ∨ a.schedules.length ≤ idx
  · rw [if_pos hg] at hres
    exact Option.noConfusion hres
  · rw [if_neg hg] at hres
    exact (volumeLoop_some a idx iw ih dl minH maxH minw total max_days start 0 []
      res (by omega) (by intro w hw; simp at hw) hres).1

/-- C10 witness: a 100-minute volume request consumes exactly 100 minutes. -/
theorem find_window_by_volume_total_exact_witness :
    (find_window_by_volume exAnalyzer 100 50 exDate 0 true true none 2 7 23 =
      some ⟨100, 1, [⟨exDate, 765, 865, 100⟩]⟩) ∧
    (VolumeResult.mk 100 1 [⟨exDate, 765, 865, 100⟩]).total_minutes = 100 :=
  ⟨by decide,
    find_window_by_volume_total_exact exAnalyzer 100 50 exDate 0 true true none
      2 7 23 ⟨100, 1, [⟨exDate, 765, 865, 100⟩]⟩ (by decide)⟩

/-- C4 (amended): `_get_free_intervals_for_multiple_schedules` returns the
same interval list for any permutation of a non-empty list of valid indices,
provided (the amendment) every referenced calendar's recorded busy intervals
for the date are sorted ascending by start and well-formed (`start < end`),
and the day bounds satisfy `minStartHour < maxEndHour`. -/
theorem multi_schedules_commutative (a : Analyzer) (d : Date) (minH maxH : ℕ)
    (idxs idxs2 : List ℕ)
    (hne : idxs ≠ []) (hperm : List.Perm idxs idxs2)
    (hs : a.schedules ≠ [])
    (hvalid : ∀ i ∈ idxs, i < a.schedules.length)
    (hmm : minH < maxH)
    (hwf : ∀ i ∈ idxs, ∀ l, alookup d (get_busy_intervals a i) = some l →
      l.Pairwise (fun p q => p.1 ≤ q.1) ∧ ∀ p ∈ l, p.1 < p.2) :
    get_free_intervals_for_multiple_schedules a d (some idxs) minH maxH =
      get_free_intervals_for_multiple_schedules a d (some idxs2) minH maxH := by
  have hne2 : idxs2 ≠ [] := by
    intro h
    rw [h] at hperm
    exact hne (List.Perm.eq_nil hperm)
  have hcanon : ∀ i ∈ idxs, Canon (get_free_intervals a d i minH maxH) := by
    intro i hi
    exact get_free_intervals_canon a d i minH maxH hmm (fun l hl => hwf i hi l hl)
  have hcanon2 : ∀ i ∈ idxs2, Canon (get_free_intervals a d i minH maxH) :=
    fun i hi => hcanon i (hperm.mem_iff.2 hi)
  obtain ⟨i0, rest, hsplit⟩ : ∃ i0 rest, idxs = i0 :: rest := by
    cases idxs with
    | nil => exact absurd rfl hne
    | cons x xs => exact ⟨x, xs, rfl⟩
  obtain ⟨j0, rest2, hsplit2⟩ : ∃ j0 rest2, idxs2 = j0 :: rest2 := by
    cases idxs2 with
    | nil => exact absurd rfl hne2
    | cons x xs => exact ⟨x, xs, rfl⟩
  have hi0 : i0 ∈ idxs := by
    rw [hsplit]
    exact List.mem_cons_self _ _
  have hj0 : j0 ∈ idxs2 := by
    rw [hsplit2]
    exact List.mem_cons_self _ _
  rw [get_free_intervals_for_multiple_schedules, get_free_intervals_for_multiple_schedules,
    if_neg hs, if_neg hs]
  simp only [Option.getD_some]
  rw [hsplit, hsplit2]
  show some (interFold a d minH maxH (get_free_intervals a d i0 minH maxH) rest)
    = some (interFold a d minH maxH (get_free_intervals a d j0 minH maxH) rest2)
  refine congrArg some ?_
  apply canon_eq_of_covers
  · exact canon_interFold a d minH maxH rest _ (hcanon i0 hi0)
      (fun j hj => hcanon j (by rw [hsplit]; exact List.mem_cons_of_mem _ hj))
  · exact canon_interFold a d minH maxH rest2 _ (hcanon2 j0 hj0)
      (fun j hj => hcanon2 j (by rw [hsplit2]; exact List.mem_cons_of_mem _ hj))
  · intro t
    rw [covers_interFold, covers_interFold]
    have h1 : (covers (get_free_intervals a d i0 minH maxH) t ∧
        ∀ i ∈ rest, covers (get_free_intervals a d i minH maxH) t) ↔
        ∀ i ∈ idxs, covers (get_free_intervals a d i minH maxH) t := by
      rw [hsplit]
      constructor
      · rintro ⟨ha, hb⟩ i hi
        rcases List.mem_cons.1 hi with rfl | hi
        · exact ha
        · exact hb i hi
      · intro h
        exact ⟨h i0 (List.mem_cons_self _ _), fun i hi => h i (List.mem_cons_of_mem _ hi)⟩
    have h2 : (covers (get_free_intervals a d j0 minH maxH) t ∧
        ∀ i ∈ rest2, covers (get_free_intervals a d i minH maxH) t) ↔
        ∀ i ∈ idxs2, covers (get_free_intervals a d i minH maxH) t := by
      rw [hsplit2]
      constructor
      · rintro ⟨ha, hb⟩ i hi
        rcases List.mem_cons.1 hi with rfl | hi
        · exact ha
        · exact hb i hi
      · intro h
        exact ⟨h j0 (List.mem_cons_self _ _), fun i hi => h i (List.mem_cons_of_mem _ hi)⟩
    rw [h1, h2]
    constructor
    · intro h i hi
      exact h i (hperm.mem_iff.2 hi)
    · intro h i hi
      exact h i (hperm.mem_iff.1 hi)

/-- C4 witness: on two well-formed calendars, the common free intervals for
index order `[0, 1]` equal those for `[1, 0]`. -/
theorem multi_schedules_commutative_witness :
    List.Perm [0, 1] [1, 0] ∧
    get_free_intervals_for_multiple_schedules exAnalyzer exDate (some [0, 1]) 7 23 =
      get_free_intervals_for_multiple_schedules exAnalyzer exDate (some [1, 0]) 7 23 := by
  refine ⟨by decide, multi_schedules_commutative exAnalyzer exDate 7 23 [0, 1] [1, 0]
    (by decide) (by decide) (by decide) (by decide) (by omega) ?_⟩
  intro i hi l hl
  rcases List.mem_cons.1 hi with rfl | hi
  · rw [show get_busy_intervals exAnalyzer 0 = [(exDate, [(560, 655), (670, 765)])]
      from by decide, alookup, if_pos rfl] at hl
    rcases Option.some.inj hl with rfl
    exact ⟨by decide, by decide⟩
  · rcases List.mem_cons.1 hi with rfl | hi
    · rw [show get_busy_intervals exAnalyzer 1 = [(exDate, [(560, 765)])]
        from by decide, alookup, if_pos rfl] at hl
      rcases Option.some.inj hl with rfl
      exact ⟨by decide, by decide⟩
    · simp at hi

/-- C4 counterexample: a lesson `"23:15-07:10"` (parsed without checking the
order of its endpoints) makes the running intersection order-sensitive:
index orders `[0, 1]` and `[1, 0]` give different lists, so the claim as
frozen — with no well-formedness restriction — is false. -/
theorem multi_schedules_commutative_cex :
    List.Perm [0, 1] [1, 0] ∧
    (∀ i ∈ [0, 1], i < malAnalyzer.schedules.length) ∧
    get_free_intervals_for_multiple_schedules malAnalyzer exDate (some [0, 1]) 7 23 =
      some [(440, 460), (470, 480), (440, 460), (470, 480)] ∧
    get_free_intervals_for_multiple_schedules malAnalyzer exDate (some [1, 0]) 7 23 =
      some [(440, 460), (440, 460), (470, 480), (470, 480)] ∧
    get_free_intervals_for_multiple_schedules malAnalyzer exDate (some [0, 1]) 7 23 ≠
      get_free_intervals_for_multiple_schedules malAnalyzer exDate (some [1, 0]) 7 23 := by
  exact ⟨by decide, by decide, by decide, by decide, by decide⟩

/-- C5: for a non-empty store, the multi-calendar resolver on the singleton
index list `[i]` returns exactly the single-calendar free intervals of
index `i` (intersection identity). -/
theorem multi_schedules_singleton (a : Analyzer) (d : Date) (i minH maxH : ℕ)
    (hs : a.schedules ≠ []) (hi : i < a.schedules.length) :
    get_free_intervals_for_multiple_schedules a d (some [i]) minH maxH =
      some (get_free_intervals a d i minH maxH) := by
  rw [get_free_intervals_for_multiple_schedules, if_neg hs]
  show some (interFold a d minH maxH (get_free_intervals a d i minH maxH) []) = _
  rw [interFold]

/-- C5 witness: the intersection identity at index 0 of the example store. -/
theorem multi_schedules_singleton_witness :
    (exAnalyzer.schedules ≠ [] ∧ 0 < exAnalyzer.schedules.length) ∧
    get_free_intervals_for_multiple_schedules exAnalyzer exDate (some [0]) 7 23 =
      some (get_free_intervals exAnalyzer exDate 0 7 23) :=
  ⟨⟨by decide, by decide⟩,
    multi_schedules_singleton exAnalyzer exDate 0 7 23 (by decide) (by decide)⟩

theorem processLessons_ok :
    ∀ (ls : List Lesson) (cur : List (ℕ × ℕ)), (∀ les ∈ ls, LessonOk les) →
      processLessons cur ls = (cur ++ lessonIvls ls, true) := by
  intro ls
  induction ls with
  | nil =>
    intro cur _
    simp [processLessons, lessonIvls]
  | cons les ls ih =>
    intro cur hok
    have hok' : ∀ l ∈ ls, LessonOk l := fun l hl => hok l (List.mem_cons_of_mem _ hl)
    rcases hok les (List.mem_cons_self _ _) with h | h | ⟨ts, iv, hts, hiv⟩
    · rw [processLessons, h, ih cur hok']
      simp [lessonIvls, h]
    · rw [processLessons, h]
      dsimp only
      rw [if_pos rfl, ih cur hok']
      simp [lessonIvls, h]
    · have hts0 : ts ≠ [] := by
        intro h0
        rw [h0] at hiv
        rw [show parse_time ([] : List Char) = none from by decide] at hiv
        exact Option.noConfusion hiv
      rw [processLessons, hts]
      dsimp only
      rw [if_neg hts0, hiv]
      dsimp only
      rw [ih _ hok']
      simp [lessonIvls, hts, hts0, hiv]

theorem processLessons_partial :
    ∀ (pre : List Lesson) (bad : Lesson) (rest : List Lesson)
      (cur : List (ℕ × ℕ)) (ts : List Char),
      (∀ les ∈ pre, LessonOk les) →
      bad.time = some ts → ts ≠ [] → parse_time ts = none →
      processLessons cur (pre ++ bad :: rest) = (cur ++ lessonIvls pre, false) := by
  intro pre
  induction pre with
  | nil =>
    intro bad rest cur ts _ hbad hts0 hnone
    rw [List.nil_append, processLessons, hbad]
    dsimp only
    rw [if_neg hts0, hnone]
    simp [lessonIvls]
  | cons les pre ih =>
    intro bad rest cur ts hok hbad hts0 hnone
    have hok' : ∀ l ∈ pre, LessonOk l := fun l hl => hok l (List.mem_cons_of_mem _ hl)
    rcases hok les (List.mem_cons_self _ _) with h | h | ⟨ts₂, iv, hts, hiv⟩
    · rw [List.cons_append, processLessons, h, ih bad rest cur ts hok' hbad hts0 hnone]
      simp [lessonIvls, h]
    · rw [List.cons_append, processLessons, h]
      dsimp only
      rw [if_pos rfl, ih bad rest cur ts hok' hbad hts0 hnone]
      simp [lessonIvls, h]
    · have hts02 : ts₂ ≠ [] := by
        intro h0
        rw [h0] at hiv
        rw [show parse_time ([] : List Char) = none from by decide] at hiv
        exact Option.noConfusion hiv
      rw [List.cons_append, processLessons, hts]
      dsimp only
      rw [if_neg hts02, hiv]
      dsimp only
      rw [ih bad rest _ ts hok' hbad hts0 hnone]
      simp [lessonIvls, hts, hts02, hiv]

/-- C6: `_is_valid_date` rejects any date strictly after a set deadline
regardless of the flags; and it accepts a date exactly when the date is not
past the deadline (when one is set), the date is not a Saturday/Sunday
unless `include_weekends`, and the date is not a holiday (exact date in the
region calendar, or year-independent (day, month) in the custom set) unless
`include_holidays`. -/
theorem is_valid_date_spec (a : Analyzer) (d : Date) (iw ih : Bool) (dl : Option Date) :
    ((∃ x, dl = some x ∧ dateLtB x d = true) → is_valid_date a d iw ih dl = false) ∧
    (is_valid_date a d iw ih dl = true ↔
      ((∀ x, dl = some x → dateLtB x d = false) ∧
        (iw = true ∨ is_weekend d = false) ∧
        (ih = true ∨ is_holiday a d = false))) ∧
    (is_weekend d = true ↔ 5 ≤ weekday d) ∧
    (is_holiday a d = true ↔
      (d ∈ a.holiday_calendar ∨ (d.day, d.month) ∈ a.custom_holidays)) := by
  refine ⟨?_, ?_, ?_, ?_⟩
  · rintro ⟨x, rfl, hx⟩
    rw [is_valid_date]
    simp [hx]
  · cases dl with
    | none =>
      rw [is_valid_date]
      cases hw : is_weekend d <;> cases hh : is_holiday a d <;>
        cases iw <;> cases ih <;> simp
    | some x =>
      rw [is_valid_date]
      by_cases hx : dateLtB x d = true
      · rw [if_pos hx]
        simp [hx]
      · have hx2 : dateLtB x d = false := by
          revert hx
          cases dateLtB x d <;> simp
        rw [if_neg hx]
        cases hw : is_weekend d <;> cases hh : is_holiday a d <;>
          cases iw <;> cases ih <;> simp [hx2]
  · simp [is_weekend]
  · simp [is_holiday]

/-- C6 witness: with deadline 2025-02-10 set, 2025-02-17 is rejected even
with both inclusion flags on. -/
theorem is_valid_date_spec_witness :
    (∃ x, (some (Date.mk 2025 2 10) : Option Date) = some x ∧ dateLtB x exDate = true) ∧
    is_valid_date exAnalyzer exDate true true (some ⟨2025, 2, 10⟩) = false :=
  ⟨⟨⟨2025, 2, 10⟩, rfl, by decide⟩,
    (is_valid_date_spec exAnalyzer exDate true true (some ⟨2025, 2, 10⟩)).1
      ⟨⟨2025, 2, 10⟩, rfl, by decide⟩⟩

/-- C7 (amended): a record with a missing or unparseable date label
contributes nothing; a record all of whose lesson time strings are absent,
empty, or parseable contributes all its parsed intervals, sorted ascending
by start; but a record whose lesson list is a good prefix followed by an
unparseable time string keeps the prefix's intervals (appended in record
order, without the final sort) under its date — it does NOT contribute
nothing, and no exception escapes (the per-record handler absorbs it). -/
theorem busy_extraction_skip (y : ℕ) (acc : BusyMap) (rec : DayRecord) :
    (rec.day = none → process_day y acc rec = acc) ∧
    (∀ ds, rec.day = some ds → parse_date y ds = none → process_day y acc rec = acc) ∧
    (∀ ds dd, rec.day = some ds → parse_date y ds = some dd →
      (∀ les ∈ rec.lessons, LessonOk les) →
      process_day y acc rec =
        ainsert dd (insSort startLe ((alookup dd acc).getD [] ++ lessonIvls rec.lessons))
          acc) ∧
    (∀ ds dd pre bad rest ts, rec.day = some ds → parse_date y ds = some dd →
      rec.lessons = pre ++ bad :: rest → (∀ les ∈ pre, LessonOk les) →
      bad.time = some ts → ts ≠ [] → parse_time ts = none →
      process_day y acc rec =
        ainsert dd ((alookup dd acc).getD [] ++ lessonIvls pre) acc) ∧
    (∀ l : List (ℕ × ℕ), (insSort startLe l).Pairwise (fun p q => p.1 ≤ q.1) ∧
      List.Perm (insSort startLe l) l) := by
  refine ⟨?_, ?_, ?_, ?_, ?_⟩
  · intro h
    rw [process_day, h]
  · intro ds h hp
    rw [process_day, h]
    dsimp only
    rw [hp]
  · intro ds dd h hp hok
    rw [process_day, h]
    dsimp only
    rw [hp]
    dsimp only
    rw [processLessons_ok rec.lessons _ hok]
    simp
  · intro ds dd pre bad rest ts h hp hll hok hbad hts0 hnone
    rw [process_day, h]
    dsimp only
    rw [hp]
    dsimp only
    rw [hll, processLessons_partial pre bad rest _ ts hok hbad hts0 hnone]
    simp
  · intro l
    refine ⟨?_, insSort_perm _ l⟩
    exact (insSort_pairwise startLe startLe_total startLe_trans l).imp
      (fun hab => of_decide_eq_true hab)

/-- C7 witness: the per-record characterization applied to a fully
well-formed record (the first record of `exCal1`) on an empty map. -/
theorem busy_extraction_skip_witness :
    (∀ les ∈ [Lesson.mk (some "09:20-10:55".toList), Lesson.mk (some "11:10-12:45".toList)],
      LessonOk les) ∧
    process_day 2025 []
      ⟨some "Пн, 17 февраля".toList,
        [⟨some "09:20-10:55".toList⟩, ⟨some "11:10-12:45".toList⟩]⟩ =
      ainsert exDate (insSort startLe ((alookup exDate ([] : BusyMap)).getD [] ++
        lessonIvls [⟨some "09:20-10:55".toList⟩, ⟨some "11:10-12:45".toList⟩])) [] := by
  have hok : ∀ les ∈ [Lesson.mk (some "09:20-10:55".toList),
      Lesson.mk (some "11:10-12:45".toList)], LessonOk les := by
    intro les hles
    rcases List.mem_cons.1 hles with rfl | hles
    · exact Or.inr (Or.inr ⟨"09:20-10:55".toList, (560, 655), rfl, by decide⟩)
    · rcases List.mem_cons.1 hles with rfl | hles
      · exact Or.inr (Or.inr ⟨"11:10-12:45".toList, (670, 765), rfl, by decide⟩)
      · simp at hles
  exact ⟨hok,
    (busy_extraction_skip 2025 []
      ⟨some "Пн, 17 февраля".toList,
        [⟨some "09:20-10:55".toList⟩, ⟨some "11:10-12:45".toList⟩]⟩).2.2.1
      "Пн, 17 февраля".toList exDate rfl (by decide) hok⟩

/-- C7 counterexample: a day whose second lesson has the unparseable time
`"badtime"` still contributes the first lesson's interval `(480, 540)` —
the day does NOT contribute “no busy intervals at all” as the claim states. -/
theorem busy_extraction_skip_cex :
    parse_time "badtime".toList = none ∧
    alookup exDate (get_busy_intervals partialAnalyzer 0) = some [(480, 540)] :=
  ⟨by decide, by decide⟩

/-- C8 (amended): referencing a calendar index outside the store is silently
tolerated, not failed fast: extraction returns the empty busy map, the
resolver then treats the nonexistent calendar as a fully free day, and the
single-schedule searches return the not-found sentinel. -/
theorem invalid_index_tolerated (a : Analyzer) (idx : ℕ) (d : Date)
    (width total minw max_days minH maxH : ℕ) (start : Date) (iw ih : Bool)
    (dl : Option Date) (hidx : a.schedules.length ≤ idx) :
    get_busy_intervals a idx = [] ∧
    get_free_intervals a d idx minH maxH = [(60 * minH, 60 * maxH)] ∧
    find_nearest_window_by_width a width start idx iw ih dl max_days minH maxH = none ∧
    find_window_by_volume a total minw start idx iw ih dl max_days minH maxH = none := by
  have hg : a.schedules = [] ∨ a.schedules.length ≤ idx := Or.inr hidx
  refine ⟨?_, ?_, ?_, ?_⟩
  · rw [get_busy_intervals, if_pos hg]
  · rw [get_free_intervals]
    rw [show get_busy_intervals a idx = [] from by rw [get_busy_intervals, if_pos hg]]
    rw [alookup]
  · rw [find_nearest_window_by_width, if_pos hg]
  · rw [find_window_by_volume, if_pos hg]

/-- C8 witness: index 5 of a two-calendar store is out of range; the search
returns the sentinel and the resolver reports a fully free day. -/
theorem invalid_index_tolerated_witness :
    exAnalyzer.schedules.length ≤ 5 ∧
    find_nearest_window_by_width exAnalyzer 120 exDate 5 true true none 5 7 23 = none ∧
    get_free_intervals exAnalyzer exDate 5 7 23 = [(60 * 7, 60 * 23)] := by
  have happ := invalid_index_tolerated exAnalyzer 5 exDate 120 100 50 5 7 23 exDate
    true true none (by decide)
  exact ⟨by decide, happ.2.2.1, happ.2.1⟩

/-- C8 counterexample: no operation fails fast on a nonexistent index — the
nearest-window search returns the not-found sentinel for index 5, the
resolver reports the nonexistent calendar as fully free, and the
multi-calendar common-window search with the bad index 5 in its list
happily returns a window (counting the ghost participant). -/
theorem invalid_index_tolerated_cex :
    exAnalyzer.schedules.length = 2 ∧
    find_nearest_window_by_width exAnalyzer 120 exDate 5 true true none 5 7 23 = none ∧
    get_free_intervals exAnalyzer exDate 5 7 23 = [(420, 1380)] ∧
    find_common_window_for_multiple_schedules exAnalyzer 60 (some [0, 5]) exDate
      true true none 5 7 23 = some ⟨exDate, 420, 480, 60, 2⟩ := by
  exact ⟨by decide, by decide, by decide, by decide⟩

/-- C9 (amended): the calendar mutators (`add_schedule` with a non-empty
argument, `set_schedules`) clear both derived caches; the holiday-policy
mutators (`set_holiday_calendar`, `add_custom_holiday`) leave the caches
untouched, but busy/free-interval derivation does not depend on the holiday
policy, so no read of busy or free intervals is affected by them. -/
theorem cache_invalidation (a : Analyzer) (s : List DayRecord)
    (ss : List (List DayRecord)) (c : List Char) (cal : List Date)
    (dy mo idx minH maxH : ℕ) (d : Date) (hs : s ≠ []) :
    (add_schedule a s).busyCache = [] ∧
    (add_schedule a s).processedSchedules = [] ∧
    (set_schedules a ss).busyCache = [] ∧
    (set_schedules a ss).processedSchedules = [] ∧
    get_busy_intervals (set_holiday_calendar a c cal) idx = get_busy_intervals a idx ∧
    get_busy_intervals (add_custom_holiday a dy mo) idx = get_busy_intervals a idx ∧
    get_free_intervals (set_holiday_calendar a c cal) d idx minH maxH =
      get_free_intervals a d idx minH maxH ∧
    get_free_intervals (add_custom_holiday a dy mo) d idx minH maxH =
      get_free_intervals a d idx minH maxH := by
  obtain ⟨sch, yr, co, hc, ch, ps, bc⟩ := a
  exact ⟨by rw [add_schedule, if_neg hs], by rw [add_schedule, if_neg hs],
    rfl, rfl, rfl, rfl, rfl, rfl⟩

/-- C9 witness: on a store with a warm cache, adding a calendar clears the
cache, and a holiday mutation leaves every busy-interval read unchanged. -/
theorem cache_invalidation_witness :
    exCal2 ≠ [] ∧
    (add_schedule cachedAnalyzer exCal2).busyCache = [] ∧
    get_busy_intervals (add_custom_holiday cachedAnalyzer 8 3) 0 =
      get_busy_intervals cachedAnalyzer 0 := by
  have happ := cache_invalidation cachedAnalyzer exCal2 [] "RU".toList [] 8 3 0 7 23
    exDate (by decide)
  exact ⟨by decide, happ.1, happ.2.2.2.2.2.1⟩

/-- C9 counterexample: `set_holiday_calendar` and `add_custom_holiday` are
mutations of the holiday policy, yet they leave a non-empty busy-interval
cache exactly in place — they do not invalidate the derived caches as the
claim states. -/
theorem cache_invalidation_cex :
    cachedAnalyzer.busyCache ≠ [] ∧
    (set_holiday_calendar cachedAnalyzer "BY".toList []).busyCache =
      cachedAnalyzer.busyCache ∧
    (add_custom_holiday cachedAnalyzer 8 3).busyCache = cachedAnalyzer.busyCache := by
  exact ⟨by decide, by decide, by decide⟩

end ScheduleAnalyzer
